import Mathlib

/-!
Verification development for the `inferno` training-loop library
(`src/inferno/net.py` and `src/skorch/dataset.py`).

The Python data and control flow are shallowly embedded as executable Lean
definitions, translated declaration by declaration from the source.  Python
values that can appear inside a `History` query (lists, dicts, tuples,
scalars, and the local `__missingno` wrapper of `History.__getitem__`) become
the inductive type `QVal`; indices become `Idx`; exceptions are modelled with
`Option`/`Except` (`none` stands for an exception that the traced code does
not catch).
-/

namespace Inferno

/-- Index values accepted by `History.__getitem__` (`net.py` lines 108-169):
integers, slices (`start:stop`, both ends optional — `slice none none` is the
full slice `:`), string column names and tuples/lists of indices. -/
inductive Idx where
  | int : Int → Idx
  | slice : Option Int → Option Int → Idx
  | str : String → Idx
  | tup : List Idx → Idx
  deriving Repr

/-- Python values manipulated by `History` and its `__getitem__`:
numeric scalars, strings, dicts (assoc lists in insertion order), lists,
tuples (produced by `zip`/tuple-joins) and the `__missingno` marker that
`partial_index` substitutes for a caught `KeyError` (it carries the index
whose lookup failed, i.e. the argument of the `KeyError`). -/
inductive QVal where
  | num : Int → QVal
  | strv : String → QVal
  | dict : List (String × QVal) → QVal
  | list : List QVal → QVal
  | tuplev : List QVal → QVal
  | missing : Idx → QVal
  deriving Repr

/-- Python dict lookup `d[k]` on a string-keyed dict, as an assoc-list
lookup on the first matching key. -/
def lookupD : List (String × QVal) → String → Option QVal
  | [], _ => none
  | (k', v) :: rest, k => if k' = k then some v else lookupD rest k

/-- Python dict assignment `d[k] = v`: replace in place (keeping the key's
insertion position) if present, else append at the end. -/
def setD : List (String × QVal) → String → QVal → List (String × QVal)
  | [], k, v => [(k, v)]
  | (k', v') :: rest, k, v =>
      if k' = k then (k, v) :: rest else (k', v') :: setD rest k v

/-- Python list indexing `xs[i]` with negative-index support;
`none` is an uncaught `IndexError`. -/
def pyIdx (xs : List QVal) (i : Int) : Option QVal :=
  let n : Int := xs.length
  let j : Int := if i < 0 then i + n else i
  if h : 0 ≤ j ∧ j < n then
    some (xs.get ⟨j.toNat, by omega⟩)
  else none

/-- Python slice normalization for `xs[a:b]` (no step): clamp a possibly
negative bound into `[0, len]`. -/
def sliceBound (len : Nat) (dflt : Nat) : Option Int → Nat
  | none => dflt
  | some i =>
      if i < 0 then ((i + len).toNat.min len)
      else (i.toNat.min len)

/-- Python list slicing `xs[a:b]`. -/
def pySlice (xs : List QVal) (a b : Option Int) : List QVal :=
  let lo := sliceBound xs.length 0 a
  let hi := sliceBound xs.length xs.length b
  (xs.take hi).drop lo

/-- `type(x) is __missingno` test. -/
def isMissing : QVal → Bool
  | QVal.missing _ => true
  | _ => false

/-- The single-index `try: return l[idx] except KeyError: return
__missingno(e)` of `partial_index`.  A `KeyError` (string or integer lookup
on a dict) becomes `QVal.missing`; every other exception (`IndexError`,
`TypeError`, …) is uncaught, i.e. `none`. -/
def tryIndex : QVal → Idx → Option QVal
  | QVal.dict d, Idx.str k =>
      match lookupD d k with
      | some v => some v
      | none => some (QVal.missing (Idx.str k))
  | QVal.dict _, Idx.int i => some (QVal.missing (Idx.int i))
  | QVal.dict _, _ => none
  | QVal.list xs, Idx.int i => pyIdx xs i
  | QVal.list xs, Idx.slice a b => some (QVal.list (pySlice xs a b))
  | QVal.tuplev xs, Idx.int i => pyIdx xs i
  | QVal.tuplev xs, Idx.slice a b => some (QVal.tuplev (pySlice xs a b))
  | _, _ => none

/-- `incomplete_mapper`: scan a joined tuple; if it contains a
`__missingno`, return (the first) one, else keep the whole tuple. -/
def incompleteMapper (xs : List QVal) : QVal :=
  match xs.find? isMissing with
  | some m => m
  | none => QVal.tuplev xs

/-- Python iteration over a value, as used by `zip(*zz)`: lists and tuples
yield their elements, dicts yield their keys, anything else raises
`TypeError` (`none`). -/
def iterElems : QVal → Option (List QVal)
  | QVal.list xs => some xs
  | QVal.tuplev xs => some xs
  | QVal.dict d => some (d.map fun kv => QVal.strv kv.1)
  | _ => none

/-- `zip`'s transposition: rows are produced while every column still has
an element (truncation at the shortest column), like Python's `zip`. -/
def transposeMin (ls : List (List QVal)) : List (List QVal) :=
  match ls with
  | [] => []
  | l :: rest =>
      if h : ((l :: rest).any List.isEmpty : Bool) then []
      else ((l :: rest).map (fun x => x.headD (QVal.num 0)))
            :: transposeMin ((l :: rest).map List.tail)
termination_by (ls.headD []).length
decreasing_by
  simp only [List.any_cons, Bool.or_eq_true, List.isEmpty_iff] at h
  push_neg at h
  simp only [List.map_cons, List.headD_cons]
  cases l with
  | nil => exact absurd rfl h.1
  | cons a as => simp

/-- `zip(*zz)`: iterate every element of `zz` and transpose. -/
def zipStar (zz : List QVal) : Option (List (List QVal)) :=
  (zz.mapM iterElems).map transposeMin

/-- `needs_unrolling or needs_indirection` specialised to `l = list xs`
(`needs_unrolling`: the list is non-empty and its first element is a list;
`needs_indirection`: the index is not an int, tuple, list or slice — in our
index grammar, a string). -/
def unrollCond (xs : List QVal) (idx : Idx) : Bool :=
  (match xs with
   | QVal.list _ :: _ => true
   | _ => false) ||
  (match idx with
   | Idx.str _ => true
   | _ => false)

mutual

/-- `partial_index(l, idx)` from `History.__getitem__` (`net.py` 118-148).
`none` models an uncaught exception. -/
def partialIndex : QVal → Idx → Option QVal
  | QVal.list xs, idx =>
      if unrollCond xs idx then
        (piMap xs idx).map QVal.list
      else
        match idx with
        | Idx.tup ns => do
            let zz ← piJoin (QVal.list xs) ns
            let tj ← zipStar zz
            pure (QVal.list (tj.map incompleteMapper))
        | _ => tryIndex (QVal.list xs) idx
  | l, Idx.tup ns => (piJoin l ns).map incompleteMapper
  | l, idx => tryIndex l idx
termination_by l idx => sizeOf l + sizeOf idx
decreasing_by
  all_goals simp_wf <;> omega

/-- The list comprehension `[partial_index(n, idx) for n in l]`. -/
def piMap : List QVal → Idx → Option (List QVal)
  | [], _ => some []
  | x :: xs, idx => do
      let y ← partialIndex x idx
      let ys ← piMap xs idx
      pure (y :: ys)
termination_by xs idx => sizeOf xs + sizeOf idx
decreasing_by
  all_goals simp_wf <;> omega

/-- The list comprehension `zz = [partial_index(l, n) for n in idx]`. -/
def piJoin : QVal → List Idx → Option (List QVal)
  | _, [] => some []
  | l, n :: ns => do
      let y ← partialIndex l n
      let ys ← piJoin l ns
      pure (y :: ys)
termination_by l ns => sizeOf l + sizeOf ns
decreasing_by
  all_goals simp_wf <;> omega

end

mutual

/-- `filter_missing(x)` (`net.py` 150-158): recursively drop `__missingno`
children from lists; if a non-empty list is emptied, the list collapses to
its first `__missingno` child. -/
def filterMissing : QVal → QVal
  | QVal.list xs =>
      let children := fmList xs
      let filtered := children.filter (fun c => !(isMissing c))
      if children.length > 0 ∧ filtered.length = 0 then
        children.headD (QVal.num 0)
      else QVal.list filtered
  | x => x

/-- The list comprehension `[filter_missing(n) for n in x]`. -/
def fmList : List QVal → List QVal
  | [] => []
  | x :: xs => filterMissing x :: fmList xs

end

/-- The tuple-index loop of `History.__getitem__` (`net.py` 161-167):
fold the tuple parts through `partial_index` + `filter_missing`; if a step
collapses to a `__missingno`, re-raise its stored `KeyError` (`Except.error`
carrying the missing index). -/
def getTupleParts : QVal → List Idx → Option (Except Idx QVal)
  | x, [] => some (Except.ok x)
  | x, p :: rest => do
      let xd ← partialIndex x p
      match filterMissing xd with
      | QVal.missing k => some (Except.error k)
      | xf => getTupleParts xf rest

/-- `History.__getitem__(i)`: ints and slices go straight to the underlying
list (`super().__getitem__`), tuples run the axis loop; any other index
raises an uncaught `ValueError` (`none`).  `Except.error k` is the raised
`KeyError` whose argument is the originally missing key `k`. -/
def histGetItem (h : List QVal) (i : Idx) : Option (Except Idx QVal) :=
  match i with
  | Idx.int n => (pyIdx h n).map Except.ok
  | Idx.slice a b => some (Except.ok (QVal.list (pySlice h a b)))
  | Idx.tup parts => getTupleParts (QVal.list h) parts
  | Idx.str _ => none

/-- `History.new_epoch`: append `{'batches': []}`. -/
def new_epoch (h : List QVal) : List QVal :=
  h ++ [QVal.dict [("batches", QVal.list [])]]

/-- `History.record`: `self[-1][attr] = value` after the
"Call new_epoch before recording" assertion (`none` = assertion failure). -/
def record (h : List QVal) (attr : String) (value : QVal) :
    Option (List QVal) :=
  match h.getLast? with
  | some (QVal.dict d) =>
      some (h.dropLast ++ [QVal.dict (setD d attr value)])
  | _ => none

/-- `History.new_batch`: `self[-1]['batches'].append({})`
(`none` = uncaught `IndexError`/`KeyError` when no epoch exists or the
`'batches'` entry is not a list). -/
def new_batch (h : List QVal) : Option (List QVal) :=
  match h.getLast? with
  | some (QVal.dict d) =>
      match lookupD d "batches" with
      | some (QVal.list bs) =>
          some (h.dropLast ++
            [QVal.dict (setD d "batches" (QVal.list (bs ++ [QVal.dict []])))])
      | _ => none
  | _ => none

/-- `History.record_batch`: `self[-1]['batches'][-1][attr] = value`. -/
def record_batch (h : List QVal) (attr : String) (value : QVal) :
    Option (List QVal) :=
  match h.getLast? with
  | some (QVal.dict d) =>
      match lookupD d "batches" with
      | some (QVal.list bs) =>
          match bs.getLast? with
          | some (QVal.dict bd) =>
              some (h.dropLast ++
                [QVal.dict (setD d "batches"
                  (QVal.list (bs.dropLast ++ [QVal.dict (setD bd attr value)])))])
          | _ => none
      | _ => none
  | _ => none

/-- One write operation on a `History`, with scalar values as recorded by
the fit loop (losses, sizes, epoch counters). -/
inductive HOp where
  | newEpoch : HOp
  | recEpoch : String → Int → HOp
  | newBatch : HOp
  | recBatch : String → Int → HOp
  deriving Repr, DecidableEq

/-- Run a sequence of `new_epoch`/`record`/`new_batch`/`record_batch`
calls on a history (`none` as soon as one call raises). -/
def runOps : List HOp → List QVal → Option (List QVal)
  | [], h => some h
  | HOp.newEpoch :: ops, h => runOps ops (new_epoch h)
  | HOp.recEpoch k v :: ops, h => do runOps ops (← record h k (QVal.num v))
  | HOp.newBatch :: ops, h => do runOps ops (← new_batch h)
  | HOp.recBatch k v :: ops, h => do runOps ops (← record_batch h k (QVal.num v))

/-- Exceptions that can escape `fit_loop` into `partial_fit`: the user's
`KeyboardInterrupt`, or any other exception. -/
inductive PyExc where
  | keyboardInterrupt : PyExc
  | other : String → PyExc
  deriving Repr, DecidableEq

/-- `NeuralNet.partial_fit` (`net.py` 625-634).  `initialized` is
`self.initialized_`; `loopResult` is the outcome of the `self.fit_loop(X, y)`
call.  Returns the ordered initialization/notification events executed at the
`partial_fit` level and the exception (if any) that propagates to the
caller: `on_train_begin` is emitted, the loop runs inside
`try: ... except KeyboardInterrupt: pass`, then `on_train_end` is emitted. -/
def partial_fit (initialized : Bool) (loopResult : Except PyExc Unit) :
    List String × Option PyExc :=
  let pre := (if initialized then [] else ["initialize"]) ++ ["on_train_begin"]
  match loopResult with
  | Except.ok _ => (pre ++ ["on_train_end"], none)
  | Except.error PyExc.keyboardInterrupt => (pre ++ ["on_train_end"], none)
  | Except.error e => (pre, some e)

/-- The 4-tuple `X_train, X_valid, y_train, y_valid` that `fit_loop`
unpacks from `self.train_split(X, y)` (`net.py` 575); validation data may
be `None`. -/
structure SplitResult where
  X_train : List Int
  X_valid : Option (List Int)
  y_train : Option (List Int)
  y_valid : Option (List Int)

/-- The `train_split` callable as consumed by `fit_loop`. -/
abbrev Splitter := List Int → Option (List Int) → SplitResult

/-- Observable events of one `fit_loop` run. -/
inductive FitEv where
  | split : FitEv
  | epochBegin : FitEv
  | batchTrain : FitEv
  | batchValid : FitEv
  | epochEnd : FitEv
  deriving Repr, DecidableEq

/-- `NeuralNet.fit_loop` (`net.py` 570-604) with the external collaborators
abstracted: `nb d` is the number of mini-batches the configured iterator
yields over dataset `d`.  Data are flat numeric arrays.  Returns the event
trace together with the data wrapped into `dataset_train` and
`dataset_valid`.  The split (if a `train_split` is configured) happens
exactly once, before the epoch loop; when `X_valid` is `None` the
validation pass of each epoch is skipped. -/
def fit_loop (train_split : Option Splitter) (nb : List Int → Nat)
    (X : List Int) (y : Option (List Int)) (epochs : Nat) :
    List FitEv × List Int × Option (List Int) :=
  let parts : Bool × List Int × Option (List Int) :=
    match train_split with
    | some f => (true, (f X y).X_train, (f X y).X_valid)
    | none => (false, X, none)
  let didSplit := parts.1
  let X_train := parts.2.1
  let X_valid := parts.2.2
  let epochEvs :=
    [FitEv.epochBegin] ++ List.replicate (nb X_train) FitEv.batchTrain ++
    (match X_valid with
     | none => []
     | some xv => List.replicate (nb xv) FitEv.batchValid) ++
    [FitEv.epochEnd]
  ((if didSplit then [FitEv.split] else []) ++
    (List.replicate epochs epochEvs).flatten, X_train, X_valid)

end Inferno

namespace Skorch

/-- A `torch.utils.data.dataset.Subset`: the wrapped base data together
with the selected indices. -/
structure Subset where
  data : List Int
  indices : List Nat
  deriving Repr, DecidableEq

/-- `CVSplit.__call__` (`skorch/dataset.py` 241-266).  The sklearn
cross-validation strategy resolved by `check_cv` is opaque external code;
it is abstracted by `cvIsStratified` (the result of the
`_is_stratified(cv)` test) and by `splits` (the sequence of index pairs
that `cv.split(...)` yields).  The dataset is a flat array, whose
`get_len` is its length.  `none` models the uncaught `StopIteration` of
`next` when the strategy yields no split; only the FIRST yielded split is
consumed. -/
def cvSplitCall (stratified cvIsStratified : Bool)
    (splits : List (List Nat × List Nat))
    (dataset : List Int) (y : Option (List Int)) :
    Option (Except String (Subset × Subset)) :=
  if y.isNone && stratified then
    some (Except.error "Stratified CV requires explicitely passing a suitable y.")
  else if stratified && !cvIsStratified then
    some (Except.error "Stratified CV requires explicitely passing a suitable y.")
  else
    let lenOk : Bool :=
      match y with
      | some ys => dataset.length == ys.length
      | none => true
    if !lenOk then
      some (Except.error
        "Cannot perform a CV split if dataset and y have different lengths.")
    else
      match splits with
      | [] => none
      | s :: _ => some (Except.ok (⟨dataset, s.1⟩, ⟨dataset, s.2⟩))

end Skorch

namespace Inferno

/-- A callback payload: an uninitialized class or an instance, carrying
the class name and whether the source's printer test
`isinstance(cb, PrintLog) or (cb == PrintLog)` holds for it; instances
additionally record whether `initialize()` has been called on them. -/
inductive Cb where
  | cls : String → Bool → Cb
  | inst : String → Bool → Bool → Cb
  deriving Repr, DecidableEq

/-- The name `_yield_callbacks` infers for an unnamed entry: its class
name (`cb.__name__` for a class, `cb.__class__.__name__` for an
instance). -/
def Cb.clsName : Cb → String
  | Cb.cls n _ => n
  | Cb.inst n _ _ => n

/-- The printer test of `_yield_callbacks` line 410. -/
def Cb.printLike : Cb → Bool
  | Cb.cls _ p => p
  | Cb.inst _ p _ => p

/-- One registered callback entry: an explicit `(name, callback)` pair or
a bare class/instance. -/
inductive CbEntry where
  | named : String → Cb → CbEntry
  | bare : Cb → CbEntry
  deriving Repr, DecidableEq

/-- Name resolution of `_yield_callbacks` (402-409). -/
def resolveEntry : CbEntry → String × Cb
  | CbEntry.named n cb => (n, cb)
  | CbEntry.bare cb => (cb.clsName, cb)

/-- The generator body of `NeuralNet._yield_callbacks` (`net.py` 394-414):
non-printer callbacks are yielded as encountered, printer callbacks are
accumulated in `print_logs` and yielded after the loop. -/
def yieldAux : List CbEntry → List (String × Cb) → List (String × Cb)
  | [], print_logs => print_logs
  | item :: rest, print_logs =>
      if (resolveEntry item).2.printLike then
        yieldAux rest (print_logs ++ [resolveEntry item])
      else resolveEntry item :: yieldAux rest print_logs

/-- `NeuralNet._yield_callbacks` applied to
`self.default_callbacks + (self.callbacks or [])`. -/
def yieldCallbacks (default_callbacks callbacks : List CbEntry) :
    List (String × Cb) :=
  yieldAux (default_callbacks ++ callbacks) []

/-- `cb = cb(**params)` for a class / `cb.set_params(**params)` for an
instance, followed by `cb.initialize()` (`net.py` 440-444); with the
routed parameters of a fresh net empty, this instantiates (if needed) and
marks the callback initialized. -/
def initCb : Cb → Cb
  | Cb.cls n p => Cb.inst n p true
  | Cb.inst n p _ => Cb.inst n p true

/-- The loop of `NeuralNet.initialize_callbacks` (`net.py` 430-447):
`names_seen` accumulates resolved names; a repeated name raises a
`ValueError` naming the duplicate, otherwise each callback is initialized
and appended to `callbacks_`. -/
def icAux : List (String × Cb) → List String → List (String × Cb) →
    Except String (List (String × Cb))
  | [], _, callbacks_ => Except.ok callbacks_
  | nc :: rest, names_seen, callbacks_ =>
      if nc.1 ∈ names_seen then
        Except.error ("The callback name '" ++ nc.1 ++ "' appears more than once.")
      else icAux rest (nc.1 :: names_seen) (callbacks_ ++ [(nc.1, initCb nc.2)])

/-- `NeuralNet.initialize_callbacks` over the merged default and user
callback entries. -/
def initialize_callbacks (default_callbacks callbacks : List CbEntry) :
    Except String (List (String × Cb)) :=
  icAux (yieldCallbacks default_callbacks callbacks) [] []

/-- First name in the list that repeats an earlier one (the duplicate the
`initialize_callbacks` loop trips over), if any. -/
def firstDupAux : List String → List String → Option String
  | [], _ => none
  | n :: rest, seen =>
      if n ∈ seen then some n else firstDupAux rest (n :: seen)

def firstDup (names : List String) : Option String :=
  firstDupAux names []

/-- Python's `str.startswith`, on the character sequences. -/
def strStartsWith (s p : String) : Bool :=
  p.toList.isPrefixOf s.toList

/-- Python's `str.endswith`, on the character sequences. -/
def strEndsWith (s p : String) : Bool :=
  p.toList.isSuffixOf s.toList

/-- `NeuralNet.prefixes_` (`net.py` 315-316). -/
def prefixes_ : List String :=
  ["module", "iterator_train", "iterator_test", "optim", "criterion",
   "callbacks"]

/-- The component re-initializations `set_params` can trigger. -/
inductive Reinit where
  | criterion : Reinit
  | callbacks : Reinit
  | module : Reinit
  | optimizer : Reinit
  deriving Repr, DecidableEq

/-- `NeuralNet.set_params` (`net.py` 790-815), tracking which
`initialize_*` calls run, in source order.  The partition into
`normal_params`/`special_params` follows `prefixes_`; the attribute
writes themselves (and sklearn's `BaseEstimator.set_params` on the normal
keys) do not affect which components are rebuilt and are not tracked.
`Except.error` is the `ValueError` raised when a special key ends in
`'_'` (raised while looping over the special params, before any
re-initialization). -/
def set_params (keys : List String) : Except String (List Reinit) :=
  let special := keys.filter (fun k => prefixes_.any (fun p => strStartsWith k p))
  match special.find? (fun k => strEndsWith k "_") with
  | some _ => Except.error "Not sure: Should this ever happen?"
  | none =>
      Except.ok
        ((if special.any (fun k => strStartsWith k "criterion")
          then [Reinit.criterion] else []) ++
         (if special.any (fun k => strStartsWith k "callbacks")
          then [Reinit.callbacks] else []) ++
         (if special.any (fun k => strStartsWith k "module")
          then [Reinit.module, Reinit.optimizer] else []) ++
         (if special.any (fun k => strStartsWith k "optimizer")
          then [Reinit.optimizer] else []))

/-- The attribute names visible to `hasattr(self, key)` at the kwargs
check of `NeuralNet.__init__` (`net.py` 361-365): the attributes assigned
before the loop, the class attributes, and the methods of `NeuralNet` and
its `Callback` base. -/
def declaredAttrs : List String :=
  ["module", "criterion", "optim", "lr", "max_epochs", "batch_size",
   "iterator_train", "iterator_test", "dataset", "train_split",
   "callbacks", "cold_start", "verbose", "use_cuda",
   "history", "initialized_",
   "prefixes_", "default_callbacks",
   "notify", "on_train_begin", "on_train_end", "on_epoch_begin",
   "on_epoch_end", "on_batch_begin", "on_batch_end",
   "initialize", "initialize_callbacks", "initialize_criterion",
   "initialize_module", "initialize_optimizer", "initialize_history",
   "check_data", "validation_step", "train_step", "evaluation_step",
   "fit_loop", "partial_fit", "fit", "forward", "infer",
   "predict_proba", "predict", "get_loss", "get_iterator",
   "get_params", "set_params", "save_params", "load_params"]

/-- The extra-kwargs handling of `NeuralNet.__init__` (`net.py` 358-368):
`history` and `initialized_` are popped first; every remaining key must
satisfy `assert not hasattr(self, key)` and
`assert key.endswith('_') or key_has_prefix`, and then all are stored via
`vars(self).update(kwargs)`; `self.history` and `self.initialized_` are
always assigned.  Returns the extra attribute names stored on success,
`Except.error` for an `AssertionError`. -/
def initExtraKwargs (kwargs : List String) : Except String (List String) :=
  let kw := kwargs.filter (fun k => !(k == "history" || k == "initialized_"))
  if kw.all (fun k =>
      !(declaredAttrs.contains k) &&
      (strEndsWith k "_" || prefixes_.any (fun p => strStartsWith k p))) then
    Except.ok (kw ++ ["history", "initialized_"])
  else Except.error "AssertionError"

end Inferno

namespace Skorch

/-- The data values `skorch.dataset.Dataset` handles: numeric scalars,
1-D and 2-D arrays, dicts of data and lists of data. -/
inductive PyData where
  | scalar : Int → PyData
  | arr : List Int → PyData
  | arr2 : List (List Int) → PyData
  | dictD : List (String × PyData) → PyData
  | listD : List PyData → PyData
  deriving Repr

/-- The nested structure of lengths produced by
`_apply_to_data(data, len, unpack_dict=True)`. -/
inductive LenTree where
  | leaf : Nat → LenTree
  | node : List LenTree → LenTree
  deriving Repr

mutual

/-- `_apply_to_data(data, len, unpack_dict=True)`
(`skorch/dataset.py` 21-37): `none` is an uncaught `TypeError` (`len` of a
scalar); the list/tuple branch alone catches `TypeError` and falls back to
`len(data)`; the dict branch (with `unpack_dict`) maps over the values
without catching. -/
def applyLen : PyData → Option LenTree
  | PyData.scalar _ => none
  | PyData.arr xs => some (LenTree.leaf xs.length)
  | PyData.arr2 xs => some (LenTree.leaf xs.length)
  | PyData.dictD fs => (applyLenFields fs).map LenTree.node
  | PyData.listD items =>
      match applyLenList items with
      | some ts => some (LenTree.node ts)
      | none => some (LenTree.leaf items.length)

def applyLenList : List PyData → Option (List LenTree)
  | [] => some []
  | x :: xs => do
      let t ← applyLen x
      let ts ← applyLenList xs
      pure (t :: ts)

def applyLenFields : List (String × PyData) → Option (List LenTree)
  | [] => some []
  | kv :: rest => do
      let t ← applyLen kv.2
      let ts ← applyLenFields rest
      pure (t :: ts)

end

mutual

/-- Modelled from the spec: `skorch.utils.flatten` is imported by
`skorch/dataset.py` but its source is not provided; per its use in
`get_len` (and §7's inconsistent-length checks) it flattens the nested
length structure into the flat sequence of leaf lengths. -/
def flattenTree : LenTree → List Nat
  | LenTree.leaf n => [n]
  | LenTree.node ts => flattenForest ts

def flattenForest : List LenTree → List Nat
  | [] => []
  | t :: ts => flattenTree t ++ flattenForest ts

end

/-- `get_len` (`skorch/dataset.py` 40-46): collect every leaf length,
form the set, demand exactly one distinct value; otherwise a
`ValueError`. -/
def get_len (data : PyData) : Option (Except String Nat) :=
  (applyLen data).map fun t =>
    match (flattenTree t).dedup with
    | [n] => Except.ok n
    | _ => Except.error "Dataset does not have consistent lengths."

/-- The state a successfully constructed `Dataset` holds: `self.X`,
`self.y` and `self._len` (the `device` attribute plays no role in the
modelled behavior). -/
structure DatasetS where
  X : PyData
  y : Option PyData
  _len : Nat

/-- `Dataset.__init__` (`skorch/dataset.py` 85-106): a supplied `length`
is stored and the method returns at once, skipping every check; otherwise
`len(X)` is computed, compared against `len(y)` when `y` is given, and
stored.  `none` is an uncaught `TypeError` from `get_len`. -/
def datasetInit (X : PyData) (y : Option PyData) (length? : Option Nat) :
    Option (Except String DatasetS) :=
  match length? with
  | some n => some (Except.ok ⟨X, y, n⟩)
  | none =>
      match get_len X with
      | none => none
      | some (Except.error e) => some (Except.error e)
      | some (Except.ok len_X) =>
          match y with
          | none => some (Except.ok ⟨X, none, len_X⟩)
          | some ys =>
              match get_len ys with
              | none => none
              | some (Except.error e) => some (Except.error e)
              | some (Except.ok len_y) =>
                  if len_y ≠ len_X then
                    some (Except.error "X and y have inconsistent lengths.")
                  else some (Except.ok ⟨X, some ys, len_X⟩)

/-- Torch tensors as produced by converting `PyData`: 0-d, 1-d, 2-d, or
a dict/list of tensors. -/
inductive Tensor where
  | t0 : Int → Tensor
  | t1 : List Int → Tensor
  | t2 : List (List Int) → Tensor
  | tdict : List (String × Tensor) → Tensor
  | tlist : List Tensor → Tensor
  deriving Repr

mutual

/-- Modelled from the spec: `skorch.utils.to_tensor` is imported by
`skorch/dataset.py` but its source is not provided; per §6 the tensor
engine supplies structure-preserving tensor construction from numeric
data (a tensor input is returned unchanged). -/
def to_tensor : PyData → Tensor
  | PyData.scalar v => Tensor.t0 v
  | PyData.arr xs => Tensor.t1 xs
  | PyData.arr2 xs => Tensor.t2 xs
  | PyData.dictD fs => Tensor.tdict (toTensorFields fs)
  | PyData.listD items => Tensor.tlist (toTensorList items)

def toTensorFields : List (String × PyData) → List (String × Tensor)
  | [] => []
  | kv :: rest => (kv.1, to_tensor kv.2) :: toTensorFields rest

def toTensorList : List PyData → List Tensor
  | [] => []
  | x :: xs => to_tensor x :: toTensorList xs

end

mutual

/-- Modelled from the spec: `skorch.utils.multi_indexing` is imported by
`skorch/dataset.py` but its source is not provided; per §3 the record
source produces rows by integer index — arrays are indexed row-wise,
dicts and lists element-wise.  `none` is an out-of-range or scalar
index. -/
def multi_indexing : PyData → Nat → Option PyData
  | PyData.scalar _, _ => none
  | PyData.arr xs, i => (xs.get? i).map PyData.scalar
  | PyData.arr2 xs, i => (xs.get? i).map PyData.arr
  | PyData.dictD fs, i => (miFields fs i).map PyData.dictD
  | PyData.listD items, i => (miList items i).map PyData.listD

def miFields : List (String × PyData) → Nat → Option (List (String × PyData))
  | [], _ => some []
  | kv :: rest, i => do
      let v ← multi_indexing kv.2 i
      let vs ← miFields rest i
      pure ((kv.1, v) :: vs)

def miList : List PyData → Nat → Option (List PyData)
  | [], _ => some []
  | x :: xs, i => do
      let v ← multi_indexing x i
      let vs ← miList xs i
      pure (v :: vs)

end

/-- `Dataset.transform` (`skorch/dataset.py` 111-138): an absent target is
replaced by the placeholder `torch.Tensor([0])` (a one-element tensor
holding 0) before both components are converted with `to_tensor` (the
placeholder, already a tensor, passes through unchanged). -/
def transform (X : PyData) (y : Option PyData) : Tensor × Tensor :=
  (to_tensor X,
   match y with
   | none => Tensor.t1 [0]
   | some v => to_tensor v)

/-- `Dataset.__getitem__` (`skorch/dataset.py` 140-147) for non-pandas
`X`: index `X`, index `y` unless it is `None`, and run `transform`. -/
def datasetGetitem (ds : DatasetS) (i : Nat) : Option (Tensor × Tensor) :=
  match multi_indexing ds.X i with
  | none => none
  | some Xi =>
      match ds.y with
      | none => some (transform Xi none)
      | some ys =>
          match multi_indexing ys i with
          | none => none
          | some yi => some (transform Xi (some yi))

end Skorch

namespace Inferno

/-- A Python dict with string keys, as stored in epoch and batch records. -/
abbrev Dct := List (String × QVal)

/-- A record whose stored values are ordinary data (no `__missingno`
values — those exist only transiently inside `__getitem__`). -/
def dctClean (d : Dct) : Bool :=
  d.all (fun kv => !isMissing kv.2)

/-- What `partial_index` yields for one string key on one record dict:
the stored value, or the `__missingno` of the caught `KeyError`. -/
def lkd (d : Dct) (k : String) : QVal :=
  match lookupD d k with
  | some v => v
  | none => QVal.missing (Idx.str k)

/-- Does the record contain every selected column? -/
def hasAllKeys (d : Dct) (ks : List String) : Bool :=
  ks.all (fun k => (lookupD d k).isSome)

/-- First selected column absent from the record, if any. -/
def firstAbsent (d : Dct) (ks : List String) : Option String :=
  ks.find? (fun k => (lookupD d k).isNone)

/-- The column-order-preserving tuple projection of a record that has all
the selected columns. -/
def projTuple (d : Dct) (ks : List String) : QVal :=
  QVal.tuplev (ks.map (fun k => (lookupD d k).getD (QVal.num 0)))

/-- What one record contributes to a tuple-column query: its projection
if it has every column, else the `__missingno` of its first absent
column. -/
def rowRes (d : Dct) (ks : List String) : QVal :=
  match firstAbsent d ks with
  | some k => QVal.missing (Idx.str k)
  | none => projTuple d ks

/-- Claim-side description of `history[:, (k1, ..., kn)]`: records missing
some selected column are excluded; if that empties a non-empty history the
query fails with a key-error carrying the first absent column of the first
record. -/
def specEpochCols (es : List Dct) (ks : List String) : Except Idx QVal :=
  match es, es.filter (fun d => hasAllKeys d ks) with
  | e :: _, [] => Except.error (Idx.str ((firstAbsent e ks).getD ""))
  | _, good => Except.ok (QVal.list (good.map (fun d => projTuple d ks)))

/-- Claim-side description of `history[:, k]` for a single column name. -/
def specEpochCol (es : List Dct) (k : String) : Except Idx QVal :=
  match es, es.filter (fun d => (lookupD d k).isSome) with
  | _ :: _, [] => Except.error (Idx.str k)
  | _, good =>
      Except.ok (QVal.list (good.map (fun d => (lookupD d k).getD (QVal.num 0))))

/-- Is an epoch kept by a batch-level column query?  An epoch with no
batches stays (as an empty list); an epoch with batches stays iff at least
one batch has every selected column. -/
def epochGood (bs : List Dct) (ks : List String) : Bool :=
  bs.isEmpty || !((bs.filter (fun b => hasAllKeys b ks)).isEmpty)

/-- Claim-side description of `history[:, 'batches', :, (k1, ..., kn)]`:
batches missing a column are excluded inside their epoch; an epoch whose
(non-empty) batch list is emptied by the exclusion is excluded in turn;
if every epoch of a non-empty history is excluded this way the query
fails with a key-error carrying the first absent column of the first
batch of the first epoch. -/
def specBatchCols (bss : List (List Dct)) (ks : List String) : Except Idx QVal :=
  match bss with
  | [] => Except.ok (QVal.list [])
  | b1 :: _ =>
      let goods := bss.filter (fun bs => epochGood bs ks)
      if goods.isEmpty then
        Except.error (Idx.str ((firstAbsent (b1.headD []) ks).getD ""))
      else
        Except.ok (QVal.list (goods.map (fun bs =>
          QVal.list ((bs.filter (fun b => hasAllKeys b ks)).map
            (fun b => projTuple b ks)))))

/-- The epoch-keeping test for a single-column batch query. -/
def epochGood1 (bs : List Dct) (k : String) : Bool :=
  bs.isEmpty || !((bs.filter (fun b => (lookupD b k).isSome)).isEmpty)

/-- Claim-side description of `history[:, 'batches', :, k]` for a single
column name. -/
def specBatchCol (bss : List (List Dct)) (k : String) : Except Idx QVal :=
  match bss with
  | [] => Except.ok (QVal.list [])
  | _ :: _ =>
      let goods := bss.filter (fun bs => epochGood1 bs k)
      if goods.isEmpty then Except.error (Idx.str k)
      else
        Except.ok (QVal.list (goods.map (fun bs =>
          QVal.list ((bs.filter (fun b => (lookupD b k).isSome)).map
            (fun b => (lookupD b k).getD (QVal.num 0))))))

/-- The number of batch records in the current (last) epoch. -/
def nBatches (h : List QVal) : Nat :=
  match h.getLast? with
  | some (QVal.dict d) =>
      match lookupD d "batches" with
      | some (QVal.list bs) => bs.length
      | _ => 0
  | _ => 0

/-- Structural well-formedness that `runOps` maintains: every epoch row is
a dict, and if its `'batches'` entry is a list then every batch row in it
is a dict. -/
def HistOk (h : List QVal) : Prop :=
  ∀ e ∈ h, ∃ d : Dct, e = QVal.dict d ∧
    ∀ bs, lookupD d "batches" = some (QVal.list bs) →
      ∀ b ∈ bs, ∃ bd : Dct, b = QVal.dict bd

end Inferno

namespace Inferno

/-- What one epoch's batch list becomes, under a batch-level tuple-column
query, after `filter_missing` has filtered its rows: the projections of
the batches having all columns, or — when that empties a non-empty batch
list — the `__missingno` of the first batch's first absent column. -/
def epochRowsRes (bs : List Dct) (ks : List String) : QVal :=
  match bs, bs.filter (fun b => hasAllKeys b ks) with
  | b :: _, [] => rowRes b ks
  | _, kept => QVal.list (kept.map (fun b => rowRes b ks))

/-- Single-column analogue of `epochRowsRes`. -/
def epochRowRes1 (bs : List Dct) (k : String) : QVal :=
  match bs, bs.filter (fun b => (lookupD b k).isSome) with
  | b :: _, [] => lkd b k
  | _, kept => QVal.list (kept.map (fun b => lkd b k))

end Inferno

open Inferno Skorch in
theorem slice_full (xs : List QVal) : pySlice xs none none = xs := by
  simp [pySlice, sliceBound]

/-- C2 counterexample: when `fit_loop` raises an exception other than
`KeyboardInterrupt` (here a `ValueError`), `partial_fit` lets it propagate
and the `on_train_end` notification is NOT emitted — contradicting the
claim that `on_train_end` is emitted in every case, including when another
exception propagates. -/
theorem c2_counterexample :
    (Inferno.partial_fit true (Except.error (Inferno.PyExc.other "ValueError"))).2 =
      some (Inferno.PyExc.other "ValueError") ∧
    "on_train_end" ∉
      (Inferno.partial_fit true (Except.error (Inferno.PyExc.other "ValueError"))).1 := by
  constructor
  · rfl
  · decide

/-- C2 (amended): a `KeyboardInterrupt` raised in the fit loop is swallowed
at the `partial_fit` boundary and `on_train_end` is emitted after the loop
both on normal completion and after an interrupt; any other exception
propagates to the caller and `on_train_end` is then NOT emitted. -/
theorem c2_theorem (init : Bool) (r : Except Inferno.PyExc Unit) :
    ((Inferno.partial_fit init r).2 = none ↔
      (r = Except.ok () ∨ r = Except.error Inferno.PyExc.keyboardInterrupt)) ∧
    ("on_train_end" ∈ (Inferno.partial_fit init r).1 ↔
      (r = Except.ok () ∨ r = Except.error Inferno.PyExc.keyboardInterrupt)) ∧
    (∀ e, r = Except.error e → e ≠ Inferno.PyExc.keyboardInterrupt →
      (Inferno.partial_fit init r).2 = some e ∧
      "on_train_end" ∉ (Inferno.partial_fit init r).1) := by
  cases r with
  | ok u =>
      cases u
      cases init <;> simp [Inferno.partial_fit]
  | error e =>
      cases e with
      | keyboardInterrupt => cases init <;> simp [Inferno.partial_fit]
      | other s =>
          cases init <;> simp [Inferno.partial_fit]

/-- Witness for `c2_theorem` at a concrete exception. -/
theorem c2_theorem_witness :
    (Inferno.partial_fit false (Except.error (Inferno.PyExc.other "RuntimeError"))).2 =
      some (Inferno.PyExc.other "RuntimeError") ∧
    "on_train_end" ∉
      (Inferno.partial_fit false (Except.error (Inferno.PyExc.other "RuntimeError"))).1 :=
  (c2_theorem false (Except.error (Inferno.PyExc.other "RuntimeError"))).2.2
    (Inferno.PyExc.other "RuntimeError") rfl (by simp)

/-- C4: `_yield_callbacks` emits the merged default-then-user entries with
their resolved names, in registration order, except that every entry
passing the printer test is moved to the tail; relative order is preserved
among printers and among non-printers separately. -/
theorem c4_theorem (d u : List Inferno.CbEntry) :
    Inferno.yieldCallbacks d u =
      ((d ++ u).map Inferno.resolveEntry).filter
        (fun nc => !nc.2.printLike) ++
      ((d ++ u).map Inferno.resolveEntry).filter
        (fun nc => nc.2.printLike) := by
  have aux : ∀ (items : List Inferno.CbEntry) (acc : List (String × Inferno.Cb)),
      Inferno.yieldAux items acc =
        (items.map Inferno.resolveEntry).filter (fun nc => !nc.2.printLike) ++
        (acc ++ (items.map Inferno.resolveEntry).filter (fun nc => nc.2.printLike)) := by
    intro items
    induction items with
    | nil => intro acc; simp [Inferno.yieldAux]
    | cons it rest ih =>
        intro acc
        cases hp : (Inferno.resolveEntry it).2.printLike with
        | false => simp [Inferno.yieldAux, hp, ih, List.filter_cons]
        | true => simp [Inferno.yieldAux, hp, ih, List.filter_cons]
  simpa [Inferno.yieldCallbacks] using aux (d ++ u) []

/-- C9: for a dataset whose target is globally absent (`y=None`), indexing
returns the tensor conversion of the indexed input paired with the sentinel
one-element zero tensor; when `y` is present, the target returned is the
tensor conversion of the indexed `y` (the sentinel substitution never
runs). -/
theorem c9_theorem (X ys : Skorch.PyData) (n i : Nat) (Xi : Skorch.PyData)
    (hX : Skorch.multi_indexing X i = some Xi) :
    Skorch.datasetGetitem ⟨X, none, n⟩ i =
      some (Skorch.to_tensor Xi, Skorch.Tensor.t1 [0]) ∧
    ∀ yi, Skorch.multi_indexing ys i = some yi →
      Skorch.datasetGetitem ⟨X, some ys, n⟩ i =
        some (Skorch.to_tensor Xi, Skorch.to_tensor yi) := by
  constructor
  · simp [Skorch.datasetGetitem, hX, Skorch.transform]
  · intro yi hy
    simp [Skorch.datasetGetitem, hX, hy, Skorch.transform]

/-- Witness for `c9_theorem` on a concrete 2-row dataset. -/
theorem c9_theorem_witness :
    Skorch.datasetGetitem ⟨Skorch.PyData.arr2 [[1, 2], [3, 4]], none, 2⟩ 1 =
      some (Skorch.Tensor.t1 [3, 4], Skorch.Tensor.t1 [0]) ∧
    Skorch.datasetGetitem
        ⟨Skorch.PyData.arr2 [[1, 2], [3, 4]], some (Skorch.PyData.arr [7, 9]), 2⟩ 1 =
      some (Skorch.Tensor.t1 [3, 4], Skorch.Tensor.t0 9) := by
  have h := c9_theorem (Skorch.PyData.arr2 [[1, 2], [3, 4]]) (Skorch.PyData.arr [7, 9])
    2 1 (Skorch.PyData.arr [3, 4]) rfl
  exact ⟨h.1, h.2 (Skorch.PyData.scalar 9) rfl⟩

/-- C10: a supplied `length` is stored with no X/y consistency check at
all; with no supplied length and a present `y`, construction raises a
`ValueError` exactly when the lengths of `X` and `y` differ, and otherwise
`len(dataset)` is the length of `X`. -/
theorem c10_theorem (X : Skorch.PyData) (y : Option Skorch.PyData) (n : Nat) :
    (Skorch.datasetInit X y (some n) = some (Except.ok ⟨X, y, n⟩)) ∧
    (∀ a, Skorch.get_len X = some (Except.ok a) →
      (Skorch.datasetInit X none none = some (Except.ok ⟨X, none, a⟩)) ∧
      (∀ ys b, Skorch.get_len ys = some (Except.ok b) →
        (b ≠ a → Skorch.datasetInit X (some ys) none =
            some (Except.error "X and y have inconsistent lengths.")) ∧
        (b = a → Skorch.datasetInit X (some ys) none =
            some (Except.ok ⟨X, some ys, a⟩)))) := by
  refine ⟨rfl, ?_⟩
  intro a ha
  refine ⟨by simp [Skorch.datasetInit, ha], ?_⟩
  intro ys b hb
  constructor
  · intro hne
    simp [Skorch.datasetInit, ha, hb, hne]
  · intro heq
    subst heq
    simp [Skorch.datasetInit, ha, hb]

/-- Witness for `c10_theorem`: supplied length 7 accepted despite a 3/2
mismatch; without it the same data raise the inconsistency error, and
consistent data store `len(X)`. -/
theorem c10_theorem_witness :
    (Skorch.datasetInit (Skorch.PyData.arr [1, 2, 3])
        (some (Skorch.PyData.arr [4, 5])) (some 7) =
      some (Except.ok ⟨Skorch.PyData.arr [1, 2, 3], some (Skorch.PyData.arr [4, 5]), 7⟩)) ∧
    (Skorch.datasetInit (Skorch.PyData.arr [1, 2, 3])
        (some (Skorch.PyData.arr [4, 5])) none =
      some (Except.error "X and y have inconsistent lengths.")) ∧
    (Skorch.datasetInit (Skorch.PyData.arr [1, 2, 3]) none none =
      some (Except.ok ⟨Skorch.PyData.arr [1, 2, 3], none, 3⟩)) := by
  have h := c10_theorem (Skorch.PyData.arr [1, 2, 3])
    (some (Skorch.PyData.arr [4, 5])) 7
  have h2 := h.2 3 rfl
  exact ⟨h.1, (h2.2 (Skorch.PyData.arr [4, 5]) 2 rfl).1 (by decide), h2.1⟩

theorem count_eq_zero_flatten_replicate (evs : List Inferno.FitEv) (e : Inferno.FitEv)
    (h : e ∉ evs) (n : Nat) :
    ((List.replicate n evs).flatten).count e = 0 := by
  induction n with
  | zero => simp
  | succ m ih =>
      simp [List.replicate_succ, List.count_append, ih, List.count_eq_zero.mpr h]

theorem filter_any_of_imp (keys : List String) (p q : String → Bool)
    (hpq : ∀ k, p k = true → q k = true) :
    (keys.filter q).any p = keys.any p := by
  induction keys with
  | nil => simp
  | cons k rest ih =>
      cases hq : q k with
      | false =>
          have hp : p k = false := by
            cases hp : p k with
            | false => rfl
            | true => rw [hpq k hp] at hq; cases hq
          simp [List.filter_cons, hq, hp, ih]
      | true => simp [List.filter_cons, hq, ih]

theorem strStartsWith_optimizer_optim (k : String)
    (h : Inferno.strStartsWith k "optimizer" = true) :
    Inferno.strStartsWith k "optim" = true := by
  unfold Inferno.strStartsWith at *
  rw [List.isPrefixOf_iff_prefix] at *
  exact (show "optim".toList <+: "optimizer".toList by decide).trans h

/-- C3: `fit_loop` invokes the configured splitter exactly once per call
(independently of the epoch count) and wraps its train/validation results;
with no splitter all data is training data and no validation batch is ever
processed; `CVSplit.__call__` consumes only the first split yielded by the
cross-validation strategy and returns the `(train_subset, valid_subset)`
pair of `Subset`s over the dataset. -/
theorem c3_theorem :
    (∀ (f : Inferno.Splitter) (nb : List Int → Nat) (X : List Int)
        (y : Option (List Int)) (epochs : Nat),
      ((Inferno.fit_loop (some f) nb X y epochs).1.count Inferno.FitEv.split = 1) ∧
      (Inferno.fit_loop (some f) nb X y epochs).2.1 = (f X y).X_train ∧
      (Inferno.fit_loop (some f) nb X y epochs).2.2 = (f X y).X_valid) ∧
    (∀ (nb : List Int → Nat) (X : List Int) (y : Option (List Int)) (epochs : Nat),
      ((Inferno.fit_loop none nb X y epochs).1.count Inferno.FitEv.split = 0) ∧
      (Inferno.fit_loop none nb X y epochs).2.1 = X ∧
      (Inferno.fit_loop none nb X y epochs).2.2 = none ∧
      Inferno.FitEv.batchValid ∉ (Inferno.fit_loop none nb X y epochs).1) ∧
    (∀ (stratified cvIsStratified : Bool) (s : List Nat × List Nat)
        (rest : List (List Nat × List Nat)) (ds : List Int) (yy : Option (List Int)),
      (stratified = true → cvIsStratified = true ∧ yy ≠ none) →
      (∀ ys, yy = some ys → ds.length = ys.length) →
      Skorch.cvSplitCall stratified cvIsStratified (s :: rest) ds yy =
        some (Except.ok (⟨ds, s.1⟩, ⟨ds, s.2⟩))) := by
  refine ⟨?_, ?_, ?_⟩
  · intro f nb X y epochs
    have hnotin : Inferno.FitEv.split ∉
        ([Inferno.FitEv.epochBegin] ++
          List.replicate (nb (f X y).X_train) Inferno.FitEv.batchTrain ++
          (match (f X y).X_valid with
           | none => []
           | some xv => List.replicate (nb xv) Inferno.FitEv.batchValid) ++
          [Inferno.FitEv.epochEnd]) := by
      cases (f X y).X_valid <;>
        simp [List.mem_append, List.mem_replicate]
    refine ⟨?_, rfl, rfl⟩
    simp only [Inferno.fit_loop, List.count_append]
    rw [count_eq_zero_flatten_replicate _ _ hnotin]
    rfl
  · intro nb X y epochs
    have hnotin : Inferno.FitEv.split ∉
        ([Inferno.FitEv.epochBegin] ++
          List.replicate (nb X) Inferno.FitEv.batchTrain ++ ([] : List Inferno.FitEv) ++
          [Inferno.FitEv.epochEnd]) := by
      simp [List.mem_append, List.mem_replicate]
    refine ⟨?_, rfl, rfl, ?_⟩
    · simp only [Inferno.fit_loop, List.count_append]
      rw [count_eq_zero_flatten_replicate _ _ hnotin]
      rfl
    · simp only [Inferno.fit_loop]
      intro hmem
      simp only [if_neg Bool.false_ne_true, List.nil_append, List.mem_flatten] at hmem
      obtain ⟨l, hl, hml⟩ := hmem
      rw [List.eq_of_mem_replicate hl] at hml
      simp [List.mem_append, List.mem_replicate] at hml
  · intro stratified cvIsStratified s rest ds yy hstrat hlen
    cases stratified with
    | false =>
        cases yy with
        | none => simp [Skorch.cvSplitCall]
        | some ys => simp [Skorch.cvSplitCall, hlen ys rfl]
    | true =>
        obtain ⟨hcv, hy⟩ := hstrat rfl
        subst hcv
        cases yy with
        | none => exact absurd rfl hy
        | some ys => simp [Skorch.cvSplitCall, hlen ys rfl]

/-- Witness for `c3_theorem` on concrete data. -/
theorem c3_theorem_witness :
    ((Inferno.fit_loop (some (fun X y => ⟨X, some [9], y, none⟩))
        List.length [1, 2, 3] none 4).1.count Inferno.FitEv.split = 1) ∧
    ((Inferno.fit_loop none List.length [1, 2, 3] none 4).1.count
        Inferno.FitEv.split = 0) ∧
    (Inferno.fit_loop none List.length [1, 2, 3] none 4).2.1 = [1, 2, 3] ∧
    Inferno.FitEv.batchValid ∉
      (Inferno.fit_loop none List.length [1, 2, 3] none 4).1 ∧
    Skorch.cvSplitCall false false [([0, 1], [2]), ([2, 0], [1])] [10, 20, 30] none =
      some (Except.ok (⟨[10, 20, 30], [0, 1]⟩, ⟨[10, 20, 30], [2]⟩)) := by
  refine ⟨(c3_theorem.1 (fun X y => ⟨X, some [9], y, none⟩)
      List.length [1, 2, 3] none 4).1, ?_, ?_, ?_, ?_⟩
  · exact (c3_theorem.2.1 List.length [1, 2, 3] none 4).1
  · exact (c3_theorem.2.1 List.length [1, 2, 3] none 4).2.1
  · exact (c3_theorem.2.1 List.length [1, 2, 3] none 4).2.2.2
  · exact c3_theorem.2.2 false false ([0, 1], [2]) [([2, 0], [1])] [10, 20, 30] none
      (fun h => by cases h) (fun ys h => by cases h)

theorem icAux_spec (ncs : List (String × Inferno.Cb)) :
    ∀ (seen : List String) (acc : List (String × Inferno.Cb)),
      Inferno.icAux ncs seen acc =
        match Inferno.firstDupAux (ncs.map Prod.fst) seen with
        | some nm =>
            Except.error ("The callback name '" ++ nm ++ "' appears more than once.")
        | none => Except.ok (acc ++ ncs.map (fun nc => (nc.1, Inferno.initCb nc.2))) := by
  induction ncs with
  | nil => intro seen acc; simp [Inferno.icAux, Inferno.firstDupAux]
  | cons nc rest ih =>
      intro seen acc
      by_cases hmem : nc.1 ∈ seen
      · simp [Inferno.icAux, Inferno.firstDupAux, hmem]
      · simp only [Inferno.icAux, Inferno.firstDupAux, if_neg hmem, List.map_cons]
        rw [ih (nc.1 :: seen) (acc ++ [(nc.1, Inferno.initCb nc.2)])]
        cases hfd : Inferno.firstDupAux (rest.map Prod.fst) (nc.1 :: seen) <;> simp

theorem firstDupAux_none_iff (ns : List String) :
    ∀ seen : List String,
      (Inferno.firstDupAux ns seen = none ↔ ns.Nodup ∧ ∀ n ∈ ns, n ∉ seen) := by
  induction ns with
  | nil => intro seen; simp [Inferno.firstDupAux]
  | cons n rest ih =>
      intro seen
      by_cases hmem : n ∈ seen
      · simp only [Inferno.firstDupAux, if_pos hmem]
        constructor
        · intro h; cases h
        · intro h
          exact absurd hmem (h.2 n (List.mem_cons_self n rest))
      · simp only [Inferno.firstDupAux, if_neg hmem]
        rw [ih (n :: seen)]
        constructor
        · rintro ⟨hnd, hall⟩
          refine ⟨List.nodup_cons.mpr ⟨?_, hnd⟩, ?_⟩
          · intro hn
            exact absurd (List.mem_cons_self n seen) (hall n hn)
          · intro m hm
            rcases List.mem_cons.mp hm with h | h
            · subst h; exact hmem
            · intro hs
              exact absurd (List.mem_cons.mpr (Or.inr hs)) (hall m h)
        · rintro ⟨hnd, hall⟩
          obtain ⟨hn, hnd'⟩ := List.nodup_cons.mp hnd
          refine ⟨hnd', ?_⟩
          intro m hm hs
          rcases List.mem_cons.mp hs with h | h
          · subst h; exact hn hm
          · exact hall m (List.mem_cons.mpr (Or.inr hm)) h

/-- C7: callback initialization fails with a `ValueError` naming the first
duplicated resolved name whenever two entries of the merged default+user
set resolve to the same name, and otherwise produces exactly one
`(name, initialized instance)` pair per yielded entry, in order;
`firstDup` returns `none` exactly on name sets with no duplicate. -/
theorem c7_theorem (d u : List Inferno.CbEntry) :
    (Inferno.initialize_callbacks d u =
      match Inferno.firstDup ((Inferno.yieldCallbacks d u).map Prod.fst) with
      | some nm =>
          Except.error ("The callback name '" ++ nm ++ "' appears more than once.")
      | none => Except.ok ((Inferno.yieldCallbacks d u).map
          (fun nc => (nc.1, Inferno.initCb nc.2)))) ∧
    (∀ ns : List String, Inferno.firstDup ns = none ↔ ns.Nodup) := by
  constructor
  · rw [Inferno.initialize_callbacks, icAux_spec, Inferno.firstDup]
    cases Inferno.firstDupAux ((Inferno.yieldCallbacks d u).map Prod.fst) [] <;> simp
  · intro ns
    rw [Inferno.firstDup, firstDupAux_none_iff]
    simp

/-- Witness for `c7_theorem`: two bare `PrintLog` instances collide on the
inferred name; distinct names initialize one pair per entry. -/
theorem c7_theorem_witness :
    Inferno.initialize_callbacks
        [Inferno.CbEntry.bare (Inferno.Cb.inst "PrintLog" true false)]
        [Inferno.CbEntry.bare (Inferno.Cb.inst "PrintLog" true false)] =
      Except.error "The callback name 'PrintLog' appears more than once." ∧
    Inferno.initialize_callbacks
        [Inferno.CbEntry.named "epoch_timer" (Inferno.Cb.cls "EpochTimer" false)]
        [Inferno.CbEntry.bare (Inferno.Cb.inst "MyCb" false false)] =
      Except.ok [("epoch_timer", Inferno.Cb.inst "EpochTimer" false true),
                 ("MyCb", Inferno.Cb.inst "MyCb" false true)] := by
  constructor
  · exact (c7_theorem
      [Inferno.CbEntry.bare (Inferno.Cb.inst "PrintLog" true false)]
      [Inferno.CbEntry.bare (Inferno.Cb.inst "PrintLog" true false)]).1
  · exact (c7_theorem
      [Inferno.CbEntry.named "epoch_timer" (Inferno.Cb.cls "EpochTimer" false)]
      [Inferno.CbEntry.bare (Inferno.Cb.inst "MyCb" false false)]).1

/-- C5 counterexample: the special key `'criterion_'` starts with
`'criterion'`, yet `set_params` raises the `ValueError` for special keys
ending in `'_'` and the loss object is NOT re-created — contradicting the
claim that any incoming key starting with `'criterion'` re-creates the
loss. -/
theorem c5_counterexample :
    Inferno.set_params ["criterion_"] =
      Except.error "Not sure: Should this ever happen?" ∧
    ∀ rs, Inferno.set_params ["criterion_"] ≠ Except.ok rs := by
  constructor
  · rfl
  · intro rs hrs
    rw [show Inferno.set_params ["criterion_"] =
        Except.error "Not sure: Should this ever happen?" from rfl] at hrs
    exact Except.noConfusion hrs

/-- C5 (amended): provided no special-prefixed key ends in `'_'` (such a
key raises a `ValueError` and nothing is re-initialized), `set_params`
re-creates the loss iff some key starts with `'criterion'`, re-initializes
the callbacks iff some key starts with `'callbacks'`, re-initializes the
module and the optimizer (exactly once each) iff some key starts with
`'module'`, re-initializes only the optimizer for keys starting with the
literal `'optimizer'`, and rebuilds nothing else. -/
theorem c5_theorem (keys : List String)
    (h : ∀ k ∈ keys,
      Inferno.prefixes_.any (fun p => Inferno.strStartsWith k p) = true →
      Inferno.strEndsWith k "_" = false) :
    ∃ rs, Inferno.set_params keys = Except.ok rs ∧
      rs.count Inferno.Reinit.criterion =
        (if keys.any (fun k => Inferno.strStartsWith k "criterion") then 1 else 0) ∧
      rs.count Inferno.Reinit.callbacks =
        (if keys.any (fun k => Inferno.strStartsWith k "callbacks") then 1 else 0) ∧
      rs.count Inferno.Reinit.module =
        (if keys.any (fun k => Inferno.strStartsWith k "module") then 1 else 0) ∧
      rs.count Inferno.Reinit.optimizer =
        ((if keys.any (fun k => Inferno.strStartsWith k "module") then 1 else 0) +
         (if keys.any (fun k => Inferno.strStartsWith k "optimizer") then 1 else 0)) := by
  have hfind : (keys.filter
      (fun k => Inferno.prefixes_.any (fun p => Inferno.strStartsWith k p))).find?
      (fun k => Inferno.strEndsWith k "_") = none := by
    rw [List.find?_eq_none]
    intro k hk
    rw [List.mem_filter] at hk
    rw [h k hk.1 hk.2]
    simp
  have hcrit : (keys.filter
      (fun k => Inferno.prefixes_.any (fun p => Inferno.strStartsWith k p))).any
      (fun k => Inferno.strStartsWith k "criterion") =
      keys.any (fun k => Inferno.strStartsWith k "criterion") := by
    refine filter_any_of_imp keys _ _ (fun k hk => ?_)
    exact List.any_eq_true.mpr ⟨"criterion", by decide, hk⟩
  have hcb : (keys.filter
      (fun k => Inferno.prefixes_.any (fun p => Inferno.strStartsWith k p))).any
      (fun k => Inferno.strStartsWith k "callbacks") =
      keys.any (fun k => Inferno.strStartsWith k "callbacks") := by
    refine filter_any_of_imp keys _ _ (fun k hk => ?_)
    exact List.any_eq_true.mpr ⟨"callbacks", by decide, hk⟩
  have hmod : (keys.filter
      (fun k => Inferno.prefixes_.any (fun p => Inferno.strStartsWith k p))).any
      (fun k => Inferno.strStartsWith k "module") =
      keys.any (fun k => Inferno.strStartsWith k "module") := by
    refine filter_any_of_imp keys _ _ (fun k hk => ?_)
    exact List.any_eq_true.mpr ⟨"module", by decide, hk⟩
  have hopt : (keys.filter
      (fun k => Inferno.prefixes_.any (fun p => Inferno.strStartsWith k p))).any
      (fun k => Inferno.strStartsWith k "optimizer") =
      keys.any (fun k => Inferno.strStartsWith k "optimizer") := by
    refine filter_any_of_imp keys _ _ (fun k hk => ?_)
    exact List.any_eq_true.mpr
      ⟨"optim", by decide, strStartsWith_optimizer_optim k hk⟩
  have hmain : Inferno.set_params keys = Except.ok
      ((if keys.any (fun k => Inferno.strStartsWith k "criterion")
        then [Inferno.Reinit.criterion] else []) ++
       (if keys.any (fun k => Inferno.strStartsWith k "callbacks")
        then [Inferno.Reinit.callbacks] else []) ++
       (if keys.any (fun k => Inferno.strStartsWith k "module")
        then [Inferno.Reinit.module, Inferno.Reinit.optimizer] else []) ++
       (if keys.any (fun k => Inferno.strStartsWith k "optimizer")
        then [Inferno.Reinit.optimizer] else [])) := by
    simp only [Inferno.set_params]
    rw [hfind, hcrit, hcb, hmod, hopt]
  refine ⟨_, hmain, ?_⟩
  cases keys.any (fun k => Inferno.strStartsWith k "criterion") <;>
    cases keys.any (fun k => Inferno.strStartsWith k "callbacks") <;>
    cases keys.any (fun k => Inferno.strStartsWith k "module") <;>
    cases keys.any (fun k => Inferno.strStartsWith k "optimizer") <;>
      simp [List.count_append, List.count_cons, List.count_nil]

/-- Witness for `c5_theorem`: a single `module__num_units` key triggers
exactly one module rebuild, exactly one optimizer rebuild, and no loss or
callback rebuild. -/
theorem c5_theorem_witness :
    ∃ rs, Inferno.set_params ["module__num_units"] = Except.ok rs ∧
      rs.count Inferno.Reinit.criterion =
        (if ["module__num_units"].any
            (fun k => Inferno.strStartsWith k "criterion") then 1 else 0) ∧
      rs.count Inferno.Reinit.callbacks =
        (if ["module__num_units"].any
            (fun k => Inferno.strStartsWith k "callbacks") then 1 else 0) ∧
      rs.count Inferno.Reinit.module =
        (if ["module__num_units"].any
            (fun k => Inferno.strStartsWith k "module") then 1 else 0) ∧
      rs.count Inferno.Reinit.optimizer =
        ((if ["module__num_units"].any
            (fun k => Inferno.strStartsWith k "module") then 1 else 0) +
         (if ["module__num_units"].any
            (fun k => Inferno.strStartsWith k "optimizer") then 1 else 0)) :=
  c5_theorem ["module__num_units"] (by decide)

/-- C8: under the hypothesis that no extra keyword matches a declared
attribute of the estimator (fields assigned by `__init__`, class
attributes and methods — for which `hasattr` intervenes), construction
stores all the extra keywords iff each of them either ends in `'_'` or
starts with one of the fixed prefixes, and otherwise fails with an
`AssertionError`. -/
theorem c8_theorem (kwargs : List String)
    (h : ∀ k ∈ kwargs, k ∉ Inferno.declaredAttrs) :
    (Inferno.initExtraKwargs kwargs =
        Except.ok (kwargs ++ ["history", "initialized_"]) ↔
      ∀ k ∈ kwargs, (Inferno.strEndsWith k "_" = true ∨
        Inferno.prefixes_.any (fun p => Inferno.strStartsWith k p) = true)) ∧
    ((∃ k ∈ kwargs, ¬(Inferno.strEndsWith k "_" = true ∨
        Inferno.prefixes_.any (fun p => Inferno.strStartsWith k p) = true)) →
      Inferno.initExtraKwargs kwargs = Except.error "AssertionError") := by
  have hfilter : kwargs.filter
      (fun k => !(k == "history" || k == "initialized_")) = kwargs := by
    refine List.filter_eq_self.mpr (fun k hk => ?_)
    have h1 : k ≠ "history" := by
      intro he; subst he
      exact h _ hk (by decide)
    have h2 : k ≠ "initialized_" := by
      intro he; subst he
      exact h _ hk (by decide)
    simp [h1, h2]
  have hcont : ∀ k ∈ kwargs, Inferno.declaredAttrs.contains k = false := by
    intro k hk
    rw [List.contains_eq_any_beq]
    rw [List.any_eq_false]
    intro a ha
    intro hbeq
    have hka : k = a := by simpa using hbeq
    exact h k hk (hka ▸ ha)
  constructor
  · constructor
    · intro hok k hk
      by_contra hbad
      push_neg at hbad
      have : kwargs.all (fun k =>
          !(Inferno.declaredAttrs.contains k) &&
          (Inferno.strEndsWith k "_" ||
            Inferno.prefixes_.any (fun p => Inferno.strStartsWith k p))) = false := by
        rw [List.all_eq_false]
        refine ⟨k, hk, ?_⟩
        simp [hbad.1, hbad.2]
      rw [Inferno.initExtraKwargs, hfilter, this] at hok
      simp at hok
    · intro hall
      have : kwargs.all (fun k =>
          !(Inferno.declaredAttrs.contains k) &&
          (Inferno.strEndsWith k "_" ||
            Inferno.prefixes_.any (fun p => Inferno.strStartsWith k p))) = true := by
        rw [List.all_eq_true]
        intro k hk
        rcases hall k hk with hend | hpre
        · simp [hcont k hk, hend, h k hk]
        · simp [hcont k hk, hpre, h k hk]
      rw [Inferno.initExtraKwargs, hfilter, this]
      simp
  · rintro ⟨k, hk, hbad⟩
    push_neg at hbad
    have : kwargs.all (fun k =>
        !(Inferno.declaredAttrs.contains k) &&
        (Inferno.strEndsWith k "_" ||
          Inferno.prefixes_.any (fun p => Inferno.strStartsWith k p))) = false := by
      rw [List.all_eq_false]
      refine ⟨k, hk, ?_⟩
      simp [hbad.1, hbad.2]
    rw [Inferno.initExtraKwargs, hfilter, this]
    simp

/-- Witness for `c8_theorem`: a prefixed key and a trailing-underscore key
are stored; an unprefixed, non-derived key fails the assertion. -/
theorem c8_theorem_witness :
    (Inferno.initExtraKwargs ["module__num_units", "mycustom_"] =
      Except.ok ["module__num_units", "mycustom_", "history", "initialized_"]) ∧
    (Inferno.initExtraKwargs ["bogus"] = Except.error "AssertionError") := by
  constructor
  · exact ( c8_theorem ["module__num_units", "mycustom_"] (by decide)).1.mpr (by decide)
  · exact ( c8_theorem ["bogus"] (by decide)).2 ⟨"bogus", by decide, by decide⟩

theorem lookupD_setD_self (d : Inferno.Dct) (k : String) (v : Inferno.QVal) :
    Inferno.lookupD (Inferno.setD d k v) k = some v := by
  induction d with
  | nil => simp [Inferno.setD, Inferno.lookupD]
  | cons kv rest ih =>
      by_cases hk : kv.1 = k
      · simp [Inferno.setD, hk, Inferno.lookupD]
      · simp [Inferno.setD, hk, Inferno.lookupD, ih]

theorem lookupD_setD_ne (d : Inferno.Dct) (k k' : String) (v : Inferno.QVal)
    (hne : k' ≠ k) :
    Inferno.lookupD (Inferno.setD d k v) k' = Inferno.lookupD d k' := by
  have hne' : ¬ (k = k') := fun h => hne h.symm
  induction d with
  | nil => simp [Inferno.setD, Inferno.lookupD, hne']
  | cons kv rest ih =>
      by_cases hk : kv.1 = k
      · subst hk
        simp [Inferno.setD, Inferno.lookupD, hne']
      · simp [Inferno.setD, hk, Inferno.lookupD, ih]

theorem mem_of_getLast?_qval (l : List Inferno.QVal) (a : Inferno.QVal)
    (h : l.getLast? = some a) : a ∈ l := by
  have hne : l ≠ [] := by intro hh; subst hh; simp at h
  rw [List.getLast?_eq_getLast_of_ne_nil hne] at h
  cases h
  exact List.getLast_mem hne

theorem pyIdx_len_sub_one (xs : List Inferno.QVal) (a : Inferno.QVal)
    (hx : xs.getLast? = some a) :
    Inferno.pyIdx xs ((xs.length : Int) - 1) = some a := by
  have hne : xs ≠ [] := by intro hh; subst hh; simp at hx
  have hlen : 0 < xs.length := List.length_pos.mpr hne
  rw [List.getLast?_eq_getElem?] at hx
  rw [List.getElem?_eq_some_iff] at hx
  obtain ⟨hlt, hget⟩ := hx
  have hcond : ¬ ((xs.length : Int) - 1 < 0) := by omega
  have hj : (0 : Int) ≤ (xs.length : Int) - 1 ∧ (xs.length : Int) - 1 < (xs.length : Int) := by
    omega
  have htn : ((xs.length : Int) - 1).toNat = xs.length - 1 := by omega
  simp only [Inferno.pyIdx, if_neg hcond]
  rw [dif_pos hj]
  simp only [List.get_eq_getElem, htn]
  rw [hget]

theorem pyIdx_neg_one (xs : List Inferno.QVal) (a : Inferno.QVal)
    (hx : xs.getLast? = some a) :
    Inferno.pyIdx xs (-1) = some a := by
  have hne : xs ≠ [] := by intro hh; subst hh; simp at hx
  have hlen : 0 < xs.length := List.length_pos.mpr hne
  rw [List.getLast?_eq_getElem?] at hx
  rw [List.getElem?_eq_some_iff] at hx
  obtain ⟨hlt, hget⟩ := hx
  have hcond : (-1 : Int) < 0 := by omega
  have hj : (0 : Int) ≤ -1 + (xs.length : Int) ∧ -1 + (xs.length : Int) < (xs.length : Int) := by
    omega
  have htn : (-1 + (xs.length : Int)).toNat = xs.length - 1 := by omega
  simp only [Inferno.pyIdx, if_pos hcond]
  rw [dif_pos hj]
  simp only [List.get_eq_getElem, htn]
  rw [hget]

theorem fmList_id (xs : List Inferno.QVal)
    (h : ∀ x ∈ xs, Inferno.filterMissing x = x) :
    Inferno.fmList xs = xs := by
  induction xs with
  | nil => rfl
  | cons x rest ih =>
      rw [Inferno.fmList, h x (List.mem_cons_self x rest),
        ih (fun y hy => h y (List.mem_cons.mpr (Or.inr hy)))]

theorem filterMissing_list_dicts (bs : List Inferno.QVal)
    (h : ∀ b ∈ bs, ∃ bd : Inferno.Dct, b = Inferno.QVal.dict bd) :
    Inferno.filterMissing (Inferno.QVal.list bs) = Inferno.QVal.list bs := by
  have hfm : ∀ b ∈ bs, Inferno.filterMissing b = b := by
    intro b hb
    obtain ⟨bd, hbd⟩ := h b hb
    subst hbd
    rfl
  have hnm : ∀ b ∈ bs, Inferno.isMissing b = false := by
    intro b hb
    obtain ⟨bd, hbd⟩ := h b hb
    subst hbd
    rfl
  rw [Inferno.filterMissing, fmList_id bs hfm]
  have hfl : bs.filter (fun c => !(Inferno.isMissing c)) = bs := by
    refine List.filter_eq_self.mpr (fun b hb => ?_)
    rw [hnm b hb]
    rfl
  rw [hfl]
  rcases bs with _ | ⟨b, rest⟩
  · simp
  · simp

theorem histOk_nil : Inferno.HistOk [] := by
  intro e he
  cases he

theorem histOk_new_epoch (h : List Inferno.QVal) (hok : Inferno.HistOk h) :
    Inferno.HistOk (Inferno.new_epoch h) := by
  intro e he
  rw [Inferno.new_epoch] at he
  rcases List.mem_append.mp he with hmem | hmem
  · exact hok e hmem
  · rcases List.mem_singleton.mp hmem with rfl
    refine ⟨[("batches", Inferno.QVal.list [])], rfl, ?_⟩
    intro bs hbs
    have : Inferno.QVal.list [] = Inferno.QVal.list bs := by
      simpa [Inferno.lookupD] using hbs
    cases this
    intro b hb
    cases hb

theorem histOk_record (h h' : List Inferno.QVal) (k : String) (z : Int)
    (hok : Inferno.HistOk h)
    (hr : Inferno.record h k (Inferno.QVal.num z) = some h') :
    Inferno.HistOk h' := by
  rw [Inferno.record] at hr
  split at hr
  case h_2 => cases hr
  case h_1 x d hl =>
    cases hr
    intro e he
    rcases List.mem_append.mp he with hmem | hmem
    · exact hok e (List.dropLast_subset h hmem)
    · rcases List.mem_singleton.mp hmem with rfl
      refine ⟨Inferno.setD d k (Inferno.QVal.num z), rfl, ?_⟩
      intro bs hbs
      by_cases hk : "batches" = k
      · subst hk
        rw [lookupD_setD_self] at hbs
        cases hbs
      · rw [lookupD_setD_ne d k "batches" _ hk] at hbs
        obtain ⟨d₀, hd₀, hcond⟩ := hok _ (mem_of_getLast?_qval h _ hl)
        cases hd₀
        exact hcond bs hbs

theorem histOk_new_batch (h h' : List Inferno.QVal)
    (hok : Inferno.HistOk h)
    (hr : Inferno.new_batch h = some h') :
    Inferno.HistOk h' := by
  rw [Inferno.new_batch] at hr
  split at hr
  case h_2 => cases hr
  case h_1 x d hl =>
    split at hr
    case h_2 => cases hr
    case h_1 y bs hbs0 =>
      cases hr
      intro e he
      rcases List.mem_append.mp he with hmem | hmem
      · exact hok e (List.dropLast_subset h hmem)
      · rcases List.mem_singleton.mp hmem with rfl
        refine ⟨_, rfl, ?_⟩
        intro bs' hbs'
        rw [lookupD_setD_self] at hbs'
        have hbs'' : bs ++ [Inferno.QVal.dict []] = bs' := by
          simpa using hbs'
        subst hbs''
        intro b hb
        rcases List.mem_append.mp hb with hmem' | hmem'
        · obtain ⟨d₀, hd₀, hcond⟩ := hok _ (mem_of_getLast?_qval h _ hl)
          cases hd₀
          exact hcond bs hbs0 b hmem'
        · rcases List.mem_singleton.mp hmem' with rfl
          exact ⟨[], rfl⟩

theorem histOk_record_batch (h h' : List Inferno.QVal) (k : String) (z : Int)
    (hok : Inferno.HistOk h)
    (hr : Inferno.record_batch h k (Inferno.QVal.num z) = some h') :
    Inferno.HistOk h' := by
  rw [Inferno.record_batch] at hr
  split at hr
  case h_2 => cases hr
  case h_1 x d hl =>
    split at hr
    case h_2 => cases hr
    case h_1 y bs hbs0 =>
      split at hr
      case h_2 => cases hr
      case h_1 z' bd hlb =>
        cases hr
        intro e he
        rcases List.mem_append.mp he with hmem | hmem
        · exact hok e (List.dropLast_subset h hmem)
        · rcases List.mem_singleton.mp hmem with rfl
          refine ⟨_, rfl, ?_⟩
          intro bs' hbs'
          rw [lookupD_setD_self] at hbs'
          have hbs'' : bs.dropLast ++ [Inferno.QVal.dict (Inferno.setD bd k (Inferno.QVal.num z))] = bs' := by
            simpa using hbs'
          subst hbs''
          intro b hb
          rcases List.mem_append.mp hb with hmem' | hmem'
          · obtain ⟨d₀, hd₀, hcond⟩ := hok _ (mem_of_getLast?_qval h _ hl)
            cases hd₀
            exact hcond bs hbs0 b (List.dropLast_subset bs hmem')
          · rcases List.mem_singleton.mp hmem' with rfl
            exact ⟨_, rfl⟩

theorem histOk_runOps (ops : List Inferno.HOp) :
    ∀ (h h' : List Inferno.QVal), Inferno.HistOk h →
      Inferno.runOps ops h = some h' → Inferno.HistOk h' := by
  induction ops with
  | nil =>
      intro h h' hok hrun
      rw [Inferno.runOps] at hrun
      cases hrun
      exact hok
  | cons op rest ih =>
      intro h h' hok hrun
      cases op with
      | newEpoch =>
          rw [Inferno.runOps] at hrun
          exact ih _ _ (histOk_new_epoch h hok) hrun
      | recEpoch k v =>
          rw [Inferno.runOps] at hrun
          cases hrec : Inferno.record h k (Inferno.QVal.num v) with
          | none => rw [hrec] at hrun; cases hrun
          | some h₁ =>
              rw [hrec] at hrun
              exact ih _ _ (histOk_record h h₁ k v hok hrec) hrun
      | newBatch =>
          rw [Inferno.runOps] at hrun
          cases hrec : Inferno.new_batch h with
          | none => rw [hrec] at hrun; cases hrun
          | some h₁ =>
              rw [hrec] at hrun
              exact ih _ _ (histOk_new_batch h h₁ hok hrec) hrun
      | recBatch k v =>
          rw [Inferno.runOps] at hrun
          cases hrec : Inferno.record_batch h k (Inferno.QVal.num v) with
          | none => rw [hrec] at hrun; cases hrun
          | some h₁ =>
              rw [hrec] at hrun
              exact ih _ _ (histOk_record_batch h h₁ k v hok hrec) hrun

theorem pyIdx_append_length (pre : List Inferno.QVal) (x : Inferno.QVal) :
    Inferno.pyIdx (pre ++ [x]) (pre.length : Int) = some x := by
  have hcond : ¬ ((pre.length : Int) < 0) := by omega
  have hj : (0 : Int) ≤ (pre.length : Int) ∧
      (pre.length : Int) < ((pre ++ [x]).length : Int) := by
    simp
  simp only [Inferno.pyIdx, if_neg hcond]
  rw [dif_pos hj]
  simp only [List.get_eq_getElem, Int.toNat_natCast]
  rw [List.getElem_concat_length pre x pre.length rfl]

theorem unrollCond_false_of_dict_head (xs : List Inferno.QVal) (i : Int)
    (hd : ∀ e ∈ xs, ∃ dd : Inferno.Dct, e = Inferno.QVal.dict dd) :
    Inferno.unrollCond xs (Inferno.Idx.int i) = false := by
  cases xs with
  | nil => rfl
  | cons x t =>
      obtain ⟨dd, hdd⟩ := hd x (List.mem_cons_self x t)
      subst hdd
      rfl

theorem query_current_batch (pre : List Inferno.QVal) (d' : Inferno.Dct)
    (bs' : List Inferno.QVal) (bd' : Inferno.Dct) (k : String) (L : Int)
    (hpre : ∀ e ∈ pre, ∃ dd : Inferno.Dct, e = Inferno.QVal.dict dd)
    (hbs : Inferno.lookupD d' "batches" = some (Inferno.QVal.list bs'))
    (hbsd : ∀ b ∈ bs', ∃ bb : Inferno.Dct, b = Inferno.QVal.dict bb)
    (hlastb : bs'.getLast? = some (Inferno.QVal.dict bd'))
    (hkv : Inferno.lookupD bd' k = some (Inferno.QVal.num L)) :
    Inferno.histGetItem (pre ++ [Inferno.QVal.dict d'])
      (Inferno.Idx.tup [Inferno.Idx.int (pre.length : Int), Inferno.Idx.str "batches",
        Inferno.Idx.int ((bs'.length : Int) - 1), Inferno.Idx.str k]) =
      some (Except.ok (Inferno.QVal.num L)) := by
  have hall : ∀ e ∈ pre ++ [Inferno.QVal.dict d'],
      ∃ dd : Inferno.Dct, e = Inferno.QVal.dict dd := by
    intro e he
    rcases List.mem_append.mp he with hmem | hmem
    · exact hpre e hmem
    · rcases List.mem_singleton.mp hmem with rfl
      exact ⟨d', rfl⟩
  have h1 : Inferno.partialIndex (Inferno.QVal.list (pre ++ [Inferno.QVal.dict d']))
      (Inferno.Idx.int (pre.length : Int)) = some (Inferno.QVal.dict d') := by
    simp only [Inferno.partialIndex, unrollCond_false_of_dict_head _ _ hall,
      Bool.false_eq_true, if_false, Inferno.tryIndex]
    exact pyIdx_append_length pre (Inferno.QVal.dict d')
  have h2 : Inferno.partialIndex (Inferno.QVal.dict d') (Inferno.Idx.str "batches") =
      some (Inferno.QVal.list bs') := by
    simp only [Inferno.partialIndex, Inferno.tryIndex, hbs]
  have h3 : Inferno.filterMissing (Inferno.QVal.list bs') = Inferno.QVal.list bs' :=
    filterMissing_list_dicts bs' hbsd
  have h4 : Inferno.partialIndex (Inferno.QVal.list bs')
      (Inferno.Idx.int ((bs'.length : Int) - 1)) = some (Inferno.QVal.dict bd') := by
    simp only [Inferno.partialIndex, unrollCond_false_of_dict_head _ _ hbsd,
      Bool.false_eq_true, if_false, Inferno.tryIndex]
    exact pyIdx_len_sub_one bs' _ hlastb
  have h5 : Inferno.partialIndex (Inferno.QVal.dict bd') (Inferno.Idx.str k) =
      some (Inferno.QVal.num L) := by
    simp only [Inferno.partialIndex, Inferno.tryIndex, hkv]
  have hfd : Inferno.filterMissing (Inferno.QVal.dict d') = Inferno.QVal.dict d' := rfl
  have hfb : Inferno.filterMissing (Inferno.QVal.dict bd') = Inferno.QVal.dict bd' := rfl
  have hfn : Inferno.filterMissing (Inferno.QVal.num L) = Inferno.QVal.num L := rfl
  rw [Inferno.histGetItem]
  simp only [Inferno.getTupleParts, h1, hfd, h2, h3, h4, hfb, h5, hfn,
    Option.bind_eq_bind, Option.some_bind]

/-- C6: (round-trip) for any history produced by a sequence of
`new_epoch`/`record`/`new_batch`/`record_batch` calls, after
`record_batch(k, L)` writes into batch `b` of (current) epoch `e`, the
query `(e-1, 'batches', b-1, k)` (0-indexed) returns exactly `L`;
(last-epoch) for any op-produced history with at least one epoch, the
query `[-1]` returns the last appended epoch record exactly (its full
dict, batch sequence included). -/
theorem c6_theorem :
    (∀ (ops : List Inferno.HOp) (h h' : List Inferno.QVal) (k : String) (L : Int),
      Inferno.runOps ops [] = some h →
      Inferno.record_batch h k (Inferno.QVal.num L) = some h' →
      Inferno.histGetItem h'
        (Inferno.Idx.tup [Inferno.Idx.int ((h'.length : Int) - 1),
          Inferno.Idx.str "batches",
          Inferno.Idx.int ((Inferno.nBatches h' : Int) - 1), Inferno.Idx.str k]) =
        some (Except.ok (Inferno.QVal.num L))) ∧
    (∀ (ops : List Inferno.HOp) (h : List Inferno.QVal) (e : Inferno.QVal),
      Inferno.runOps ops [] = some h →
      h.getLast? = some e →
      Inferno.histGetItem h (Inferno.Idx.int (-1)) = some (Except.ok e)) := by
  constructor
  · intro ops h h' k L hrun hrec
    have hok : Inferno.HistOk h := histOk_runOps ops [] h histOk_nil hrun
    rw [Inferno.record_batch] at hrec
    split at hrec
    case h_2 => cases hrec
    case h_1 x d hl =>
      split at hrec
      case h_2 => cases hrec
      case h_1 y bs hbs0 =>
        split at hrec
        case h_2 => cases hrec
        case h_1 z bd hlb =>
          cases hrec
          obtain ⟨d₀, hd₀, hcond⟩ := hok _ (mem_of_getLast?_qval h _ hl)
          cases hd₀
          have hbsdict : ∀ b ∈ bs, ∃ bb : Inferno.Dct, b = Inferno.QVal.dict bb :=
            hcond bs hbs0
          have hpre : ∀ e ∈ h.dropLast, ∃ dd : Inferno.Dct, e = Inferno.QVal.dict dd := by
            intro e he
            obtain ⟨dd, hdd, _⟩ := hok e (List.dropLast_subset h he)
            exact ⟨dd, hdd⟩
          have hbsd : ∀ b ∈ bs.dropLast ++
              [Inferno.QVal.dict (Inferno.setD bd k (Inferno.QVal.num L))],
              ∃ bb : Inferno.Dct, b = Inferno.QVal.dict bb := by
            intro b hb
            rcases List.mem_append.mp hb with hmem | hmem
            · exact hbsdict b (List.dropLast_subset bs hmem)
            · rcases List.mem_singleton.mp hmem with rfl
              exact ⟨_, rfl⟩
          have hlen : (((h.dropLast ++
              [Inferno.QVal.dict (Inferno.setD d "batches" (Inferno.QVal.list
                (bs.dropLast ++ [Inferno.QVal.dict (Inferno.setD bd k
                  (Inferno.QVal.num L))])))]).length : Int) - 1) =
              (h.dropLast.length : Int) := by
            simp
          have hnb : Inferno.nBatches (h.dropLast ++
              [Inferno.QVal.dict (Inferno.setD d "batches" (Inferno.QVal.list
                (bs.dropLast ++ [Inferno.QVal.dict (Inferno.setD bd k
                  (Inferno.QVal.num L))])))]) =
              (bs.dropLast ++ [Inferno.QVal.dict (Inferno.setD bd k
                (Inferno.QVal.num L))]).length := by
            rw [Inferno.nBatches]
            rw [List.getLast?_concat]
            simp only [lookupD_setD_self]
          rw [hlen, hnb]
          exact query_current_batch h.dropLast _ _ _ k L hpre
            (lookupD_setD_self d "batches" _) hbsd
            (List.getLast?_concat _) (lookupD_setD_self bd k _)
  · intro ops h e hrun hlast
    rw [Inferno.histGetItem]
    rw [pyIdx_neg_one h e hlast]
    rfl

/-- Witness for `c6_theorem`: one epoch, one batch, `train_loss := 5`;
the query `(0, 'batches', 0, 'train_loss')` returns 5, and `[-1]` returns
the whole epoch record. -/
theorem c6_theorem_witness :
    Inferno.histGetItem
        [Inferno.QVal.dict [("batches",
          Inferno.QVal.list [Inferno.QVal.dict [("train_loss", Inferno.QVal.num 5)]])]]
        (Inferno.Idx.tup [Inferno.Idx.int ((1 : Int) - 1), Inferno.Idx.str "batches",
          Inferno.Idx.int ((1 : Int) - 1), Inferno.Idx.str "train_loss"]) =
      some (Except.ok (Inferno.QVal.num 5)) ∧
    Inferno.histGetItem [Inferno.QVal.dict [("batches", Inferno.QVal.list [])]]
        (Inferno.Idx.int (-1)) =
      some (Except.ok (Inferno.QVal.dict [("batches", Inferno.QVal.list [])])) := by
  constructor
  · exact c6_theorem.1 [Inferno.HOp.newEpoch, Inferno.HOp.newBatch]
      [Inferno.QVal.dict [("batches", Inferno.QVal.list [Inferno.QVal.dict []])]]
      [Inferno.QVal.dict [("batches",
        Inferno.QVal.list [Inferno.QVal.dict [("train_loss", Inferno.QVal.num 5)]])]]
      "train_loss" 5 rfl rfl
  · exact c6_theorem.2 [Inferno.HOp.newEpoch]
      [Inferno.QVal.dict [("batches", Inferno.QVal.list [])]]
      (Inferno.QVal.dict [("batches", Inferno.QVal.list [])]) rfl rfl

theorem lookupD_clean (d : Inferno.Dct) (k : String) (v : Inferno.QVal)
    (hcl : Inferno.dctClean d = true) (hlk : Inferno.lookupD d k = some v) :
    Inferno.isMissing v = false := by
  induction d with
  | nil => cases hlk
  | cons kv rest ih =>
      rw [Inferno.dctClean, List.all_cons, Bool.and_eq_true] at hcl
      rw [Inferno.lookupD] at hlk
      by_cases hk : kv.1 = k
      · rw [if_pos hk] at hlk
        cases hlk
        simpa using hcl.1
      · rw [if_neg hk] at hlk
        exact ih hcl.2 hlk

theorem firstAbsent_none_iff (d : Inferno.Dct) (ks : List String) :
    Inferno.firstAbsent d ks = none ↔ Inferno.hasAllKeys d ks = true := by
  induction ks with
  | nil => simp [Inferno.firstAbsent, Inferno.hasAllKeys]
  | cons k kt ih =>
      rw [Inferno.firstAbsent, Inferno.hasAllKeys] at *
      rw [List.find?_cons, List.all_cons]
      cases hlk : Inferno.lookupD d k with
      | none => simp [hlk]
      | some v => simpa [hlk] using ih

theorem rowRes_eq_projTuple (d : Inferno.Dct) (ks : List String)
    (h : Inferno.hasAllKeys d ks = true) :
    Inferno.rowRes d ks = Inferno.projTuple d ks := by
  rw [Inferno.rowRes, (firstAbsent_none_iff d ks).mpr h]

theorem rowRes_eq_missing (d : Inferno.Dct) (ks : List String)
    (h : Inferno.hasAllKeys d ks = false) :
    Inferno.rowRes d ks =
      Inferno.QVal.missing (Inferno.Idx.str ((Inferno.firstAbsent d ks).getD "")) := by
  cases hfa : Inferno.firstAbsent d ks with
  | none =>
      rw [(firstAbsent_none_iff d ks).mp hfa] at h
      cases h
  | some k₀ => rw [Inferno.rowRes, hfa]; rfl

theorem filterMissing_rowRes (d : Inferno.Dct) (ks : List String) :
    Inferno.filterMissing (Inferno.rowRes d ks) = Inferno.rowRes d ks := by
  rw [Inferno.rowRes]
  cases Inferno.firstAbsent d ks <;> rfl

theorem isMissing_rowRes (d : Inferno.Dct) (ks : List String) :
    Inferno.isMissing (Inferno.rowRes d ks) = !(Inferno.hasAllKeys d ks) := by
  cases h : Inferno.hasAllKeys d ks with
  | true => rw [rowRes_eq_projTuple d ks h]; rfl
  | false => rw [rowRes_eq_missing d ks h]; rfl

theorem fmList_map {α : Type} (xs : List α) (raw f : α → Inferno.QVal)
    (hf : ∀ b ∈ xs, Inferno.filterMissing (raw b) = f b) :
    Inferno.fmList (xs.map raw) = xs.map f := by
  induction xs with
  | nil => rfl
  | cons b xt ih =>
      rw [List.map_cons, List.map_cons, Inferno.fmList,
        hf b (List.mem_cons_self b xt),
        ih (fun y hy => hf y (List.mem_cons.mpr (Or.inr hy)))]

theorem filter_map_of_isMissing {α : Type} (xs : List α) (f : α → Inferno.QVal)
    (keep : α → Bool)
    (hmi : ∀ b ∈ xs, Inferno.isMissing (f b) = !(keep b)) :
    (xs.map f).filter (fun c => !(Inferno.isMissing c)) = (xs.filter keep).map f := by
  induction xs with
  | nil => rfl
  | cons b xt ih =>
      rw [List.map_cons, List.filter_cons, List.filter_cons]
      rw [hmi b (List.mem_cons_self b xt)]
      have ih' := ih (fun y hy => hmi y (List.mem_cons.mpr (Or.inr hy)))
      cases hk : keep b with
      | true => simp [ih']
      | false => simp [ih']

/-- The effect of `filter_missing` on one list level whose raw children
filter to `f`-values that are `__missingno` exactly on the records `keep`
rejects: rejected records vanish (the kept ones stay in order)... -/
theorem filterMissing_map_two_ok {α : Type} (xs : List α) (raw f : α → Inferno.QVal)
    (keep : α → Bool)
    (hf : ∀ b ∈ xs, Inferno.filterMissing (raw b) = f b)
    (hmi : ∀ b ∈ xs, Inferno.isMissing (f b) = !(keep b))
    (hfl : xs = [] ∨ xs.filter keep ≠ []) :
    Inferno.filterMissing (Inferno.QVal.list (xs.map raw)) =
      Inferno.QVal.list ((xs.filter keep).map f) := by
  rw [Inferno.filterMissing]
  rw [fmList_map xs raw f hf]
  rw [filter_map_of_isMissing xs f keep hmi]
  rcases hfl with rfl | hne
  · simp
  · obtain ⟨c, ct, hc⟩ : ∃ c ct, xs.filter keep = c :: ct := by
      cases h : xs.filter keep with
      | nil => exact absurd h hne
      | cons c ct => exact ⟨c, ct, rfl⟩
    rw [hc]
    simp

/-- ... and if the rejections empty a non-empty level, the level collapses
to the first record's (missing) value. -/
theorem filterMissing_map_two_err {α : Type} (b : α) (bt : List α)
    (raw f : α → Inferno.QVal) (keep : α → Bool)
    (hf : ∀ x ∈ b :: bt, Inferno.filterMissing (raw x) = f x)
    (hmi : ∀ x ∈ b :: bt, Inferno.isMissing (f x) = !(keep x))
    (hfl : (b :: bt).filter keep = []) :
    Inferno.filterMissing (Inferno.QVal.list ((b :: bt).map raw)) = f b := by
  rw [Inferno.filterMissing]
  rw [fmList_map _ raw f hf]
  rw [filter_map_of_isMissing _ f keep hmi]
  rw [hfl]
  simp

theorem partialIndex_dict_str (d : Inferno.Dct) (k : String) :
    Inferno.partialIndex (Inferno.QVal.dict d) (Inferno.Idx.str k) =
      some (Inferno.lkd d k) := by
  simp only [Inferno.partialIndex, Inferno.tryIndex, Inferno.lkd]
  cases Inferno.lookupD d k <;> rfl

theorem piMap_str_dicts (es : List Inferno.Dct) (k : String) :
    Inferno.piMap (es.map Inferno.QVal.dict) (Inferno.Idx.str k) =
      some (es.map (fun d => Inferno.lkd d k)) := by
  induction es with
  | nil => simp [Inferno.piMap]
  | cons d est ih =>
      rw [List.map_cons, Inferno.piMap, partialIndex_dict_str, ih]
      rfl

theorem partialIndex_list_dicts_str (es : List Inferno.Dct) (k : String) :
    Inferno.partialIndex (Inferno.QVal.list (es.map Inferno.QVal.dict))
      (Inferno.Idx.str k) = some (Inferno.QVal.list (es.map (fun d => Inferno.lkd d k))) := by
  have hu : Inferno.unrollCond (es.map Inferno.QVal.dict) (Inferno.Idx.str k) = true := by
    cases es <;> rfl
  simp only [Inferno.partialIndex, hu, if_true, piMap_str_dicts, Option.map_some']

theorem piJoin_strs (l : Inferno.QVal) (g : String → Inferno.QVal) (ks : List String)
    (h : ∀ k ∈ ks, Inferno.partialIndex l (Inferno.Idx.str k) = some (g k)) :
    Inferno.piJoin l (ks.map Inferno.Idx.str) = some (ks.map g) := by
  induction ks with
  | nil => simp [Inferno.piJoin]
  | cons k kt ih =>
      rw [List.map_cons, Inferno.piJoin, h k (List.mem_cons_self k kt),
        ih (fun k' hk' => h k' (List.mem_cons.mpr (Or.inr hk')))]
      rfl

theorem mapM_iterElems_lists (cols : List (List Inferno.QVal)) :
    (cols.map Inferno.QVal.list).mapM Inferno.iterElems = some cols := by
  induction cols with
  | nil => rfl
  | cons c ct ih =>
      rw [List.map_cons, List.mapM_cons, ih]
      rfl

theorem zipStar_lists (cols : List (List Inferno.QVal)) :
    Inferno.zipStar (cols.map Inferno.QVal.list) = some (Inferno.transposeMin cols) := by
  rw [Inferno.zipStar, mapM_iterElems_lists]
  rfl

theorem transposeMin_map_map (k0 : String) (kt : List String)
    (f : String → Inferno.Dct → Inferno.QVal) :
    ∀ es : List Inferno.Dct,
      Inferno.transposeMin ((k0 :: kt).map (fun k => es.map (f k))) =
        es.map (fun e => (k0 :: kt).map (fun k => f k e)) := by
  intro es
  induction es with
  | nil => simp [Inferno.transposeMin]
  | cons e es' ih =>
      rw [show ((k0 :: kt).map (fun k => (e :: es').map (f k))) =
          ((f k0 e :: es'.map (f k0)) :: kt.map (fun k => f k e :: es'.map (f k)))
        from by simp]
      rw [Inferno.transposeMin]
      have hcond : ¬ (((f k0 e :: es'.map (f k0)) ::
          kt.map (fun k => f k e :: es'.map (f k))).any List.isEmpty = true) := by
        simp
      rw [dif_neg hcond]
      have hheads : ((f k0 e :: es'.map (f k0)) ::
          kt.map (fun k => f k e :: es'.map (f k))).map
            (fun x => x.headD (Inferno.QVal.num 0)) =
          (k0 :: kt).map (fun k => f k e) := by
        simp
      have htails : ((f k0 e :: es'.map (f k0)) ::
          kt.map (fun k => f k e :: es'.map (f k))).map List.tail =
          (k0 :: kt).map (fun k => es'.map (f k)) := by
        simp
      rw [hheads, htails, ih]
      simp

theorem incompleteMapper_row (d : Inferno.Dct) (ks : List String)
    (hcl : Inferno.dctClean d = true) :
    Inferno.incompleteMapper (ks.map (fun k => Inferno.lkd d k)) =
      Inferno.rowRes d ks := by
  induction ks with
  | nil => rfl
  | cons k kt ih =>
      cases hlk : Inferno.lookupD d k with
      | none =>
          have hx : Inferno.lkd d k = Inferno.QVal.missing (Inferno.Idx.str k) := by
            rw [Inferno.lkd, hlk]
          rw [List.map_cons, Inferno.incompleteMapper, List.find?_cons, hx]
          rw [Inferno.rowRes, Inferno.firstAbsent, List.find?_cons]
          rw [hlk]
          rfl
      | some v =>
          have hx : Inferno.lkd d k = v := by rw [Inferno.lkd, hlk]
          have hvnm : Inferno.isMissing v = false := lookupD_clean d k v hcl hlk
          have hfa_cons : Inferno.firstAbsent d (k :: kt) = Inferno.firstAbsent d kt := by
            rw [Inferno.firstAbsent, Inferno.firstAbsent, List.find?_cons, hlk]
            rfl
          rw [List.map_cons, Inferno.incompleteMapper, List.find?_cons, hx, hvnm]
          dsimp only
          rw [Inferno.incompleteMapper] at ih
          rw [Inferno.rowRes, hfa_cons]
          cases hfa : Inferno.firstAbsent d kt with
          | some k' =>
              rw [Inferno.rowRes, hfa] at ih
              cases hfind : (kt.map (fun k => Inferno.lkd d k)).find? Inferno.isMissing with
              | none =>
                  rw [hfind] at ih
                  dsimp only at ih
                  cases ih
              | some m =>
                  rw [hfind] at ih
                  dsimp only at ih
                  dsimp only
                  exact ih
          | none =>
              rw [Inferno.rowRes, hfa] at ih
              cases hfind : (kt.map (fun k => Inferno.lkd d k)).find? Inferno.isMissing with
              | some m =>
                  rw [hfind] at ih
                  dsimp only at ih
                  have hm := List.find?_some hfind
                  rw [ih] at hm
                  simp [Inferno.projTuple, Inferno.isMissing] at hm
              | none =>
                  rw [hfind] at ih
                  dsimp only at ih
                  dsimp only
                  rw [Inferno.projTuple] at ih
                  have hlists := Inferno.QVal.tuplev.inj ih
                  rw [Inferno.projTuple, List.map_cons, hlk, hlists]
                  rfl

theorem partialIndex_dicts_tup (es : List Inferno.Dct) (k0 : String) (kt : List String)
    (hcl : ∀ d ∈ es, Inferno.dctClean d = true) :
    Inferno.partialIndex (Inferno.QVal.list (es.map Inferno.QVal.dict))
      (Inferno.Idx.tup ((k0 :: kt).map Inferno.Idx.str)) =
      some (Inferno.QVal.list (es.map (fun d => Inferno.rowRes d (k0 :: kt)))) := by
  have hu : Inferno.unrollCond (es.map Inferno.QVal.dict)
      (Inferno.Idx.tup ((k0 :: kt).map Inferno.Idx.str)) = false := by
    cases es <;> rfl
  have hjoin : Inferno.piJoin (Inferno.QVal.list (es.map Inferno.QVal.dict))
      ((k0 :: kt).map Inferno.Idx.str) =
      some ((k0 :: kt).map (fun k => Inferno.QVal.list (es.map (fun d => Inferno.lkd d k)))) :=
    piJoin_strs _ _ (k0 :: kt) (fun k _ => partialIndex_list_dicts_str es k)
  have hcols : (k0 :: kt).map (fun k => Inferno.QVal.list (es.map (fun d => Inferno.lkd d k))) =
      ((k0 :: kt).map (fun k => es.map (fun d => Inferno.lkd d k))).map Inferno.QVal.list := by
    rw [List.map_map]
    rfl
  have hzip : Inferno.zipStar
      ((k0 :: kt).map (fun k => Inferno.QVal.list (es.map (fun d => Inferno.lkd d k)))) =
      some (Inferno.transposeMin ((k0 :: kt).map (fun k => es.map (fun d => Inferno.lkd d k)))) := by
    rw [hcols, zipStar_lists]
  have htrans := transposeMin_map_map k0 kt (fun k d => Inferno.lkd d k) es
  have hrows : (Inferno.transposeMin ((k0 :: kt).map
        (fun k => es.map (fun d => Inferno.lkd d k)))).map Inferno.incompleteMapper =
      es.map (fun d => Inferno.rowRes d (k0 :: kt)) := by
    rw [htrans, List.map_map]
    refine List.map_congr_left (fun d hd => ?_)
    exact incompleteMapper_row d (k0 :: kt) (hcl d hd)
  simp only [Inferno.partialIndex, hu, Bool.false_eq_true, if_false, hjoin,
    Option.bind_eq_bind, Option.some_bind, hzip, hrows]
  rfl

theorem piMap_map {α : Type} (xs : List α) (raw g : α → Inferno.QVal) (idx : Inferno.Idx)
    (h : ∀ b ∈ xs, Inferno.partialIndex (raw b) idx = some (g b)) :
    Inferno.piMap (xs.map raw) idx = some (xs.map g) := by
  induction xs with
  | nil => simp [Inferno.piMap]
  | cons b xt ih =>
      rw [List.map_cons, List.map_cons, Inferno.piMap, h b (List.mem_cons_self b xt),
        ih (fun y hy => h y (List.mem_cons.mpr (Or.inr hy)))]
      rfl

theorem partialIndex_dictlist_slice (es : List Inferno.Dct) :
    Inferno.partialIndex (Inferno.QVal.list (es.map Inferno.QVal.dict))
      (Inferno.Idx.slice none none) = some (Inferno.QVal.list (es.map Inferno.QVal.dict)) := by
  have hu : Inferno.unrollCond (es.map Inferno.QVal.dict)
      (Inferno.Idx.slice none none) = false := by
    cases es <;> rfl
  simp only [Inferno.partialIndex, hu, Bool.false_eq_true, if_false,
    Inferno.tryIndex, slice_full]

theorem partialIndex_listlists_slice (bss : List (List Inferno.Dct)) :
    Inferno.partialIndex
      (Inferno.QVal.list (bss.map (fun bs => Inferno.QVal.list (bs.map Inferno.QVal.dict))))
      (Inferno.Idx.slice none none) =
      some (Inferno.QVal.list (bss.map (fun bs => Inferno.QVal.list (bs.map Inferno.QVal.dict)))) := by
  cases bss with
  | nil =>
      simp only [List.map_nil]
      simpa using partialIndex_dictlist_slice []
  | cons bs rest =>
      have hu : Inferno.unrollCond
          (((bs :: rest).map (fun bs => Inferno.QVal.list (bs.map Inferno.QVal.dict))))
          (Inferno.Idx.slice none none) = true := rfl
      have hpm := piMap_map (bs :: rest)
        (fun bs => Inferno.QVal.list (bs.map Inferno.QVal.dict))
        (fun bs => Inferno.QVal.list (bs.map Inferno.QVal.dict))
        (Inferno.Idx.slice none none)
        (fun b _ => partialIndex_dictlist_slice b)
      simp only [Inferno.partialIndex, hu, if_true, hpm, Option.map_some']

theorem partialIndex_listlists_tup (bss : List (List Inferno.Dct)) (k0 : String)
    (kt : List String)
    (hcl : ∀ bs ∈ bss, ∀ b ∈ bs, Inferno.dctClean b = true) :
    Inferno.partialIndex
      (Inferno.QVal.list (bss.map (fun bs => Inferno.QVal.list (bs.map Inferno.QVal.dict))))
      (Inferno.Idx.tup ((k0 :: kt).map Inferno.Idx.str)) =
      some (Inferno.QVal.list (bss.map (fun bs =>
        Inferno.QVal.list (bs.map (fun b => Inferno.rowRes b (k0 :: kt)))))) := by
  cases bss with
  | nil =>
      simp only [List.map_nil]
      simpa using partialIndex_dicts_tup [] k0 kt (by simp)
  | cons bs rest =>
      have hu : Inferno.unrollCond
          (((bs :: rest).map (fun bs => Inferno.QVal.list (bs.map Inferno.QVal.dict))))
          (Inferno.Idx.tup ((k0 :: kt).map Inferno.Idx.str)) = true := rfl
      have hpm := piMap_map (bs :: rest)
        (fun bs => Inferno.QVal.list (bs.map Inferno.QVal.dict))
        (fun bs => Inferno.QVal.list (bs.map (fun b => Inferno.rowRes b (k0 :: kt))))
        (Inferno.Idx.tup ((k0 :: kt).map Inferno.Idx.str))
        (fun b hb => partialIndex_dicts_tup b k0 kt (hcl b hb))
      simp only [Inferno.partialIndex, hu, if_true, hpm, Option.map_some']

theorem filterMissing_rows (bs : List Inferno.Dct) (ks : List String) :
    Inferno.filterMissing (Inferno.QVal.list (bs.map (fun b => Inferno.rowRes b ks))) =
      Inferno.epochRowsRes bs ks := by
  cases bs with
  | nil => rfl
  | cons b bt =>
      dsimp only [Inferno.epochRowsRes]
      cases hf : (b :: bt).filter (fun b => Inferno.hasAllKeys b ks) with
      | nil =>
          rw [filterMissing_map_two_err b bt _ _ (fun b => Inferno.hasAllKeys b ks)
            (fun x _ => filterMissing_rowRes x ks) (fun x _ => isMissing_rowRes x ks) hf]
      | cons c ct =>
          rw [filterMissing_map_two_ok (b :: bt) _ _ (fun b => Inferno.hasAllKeys b ks)
            (fun x _ => filterMissing_rowRes x ks) (fun x _ => isMissing_rowRes x ks)
            (Or.inr (by rw [hf]; simp))]
          rw [hf]

theorem isMissing_epochRowsRes (bs : List Inferno.Dct) (ks : List String) :
    Inferno.isMissing (Inferno.epochRowsRes bs ks) = !(Inferno.epochGood bs ks) := by
  cases bs with
  | nil => rfl
  | cons b bt =>
      dsimp only [Inferno.epochRowsRes, Inferno.epochGood]
      cases hf : (b :: bt).filter (fun b => Inferno.hasAllKeys b ks) with
      | nil =>
          have hkeep : Inferno.hasAllKeys b ks = false := by
            have := List.filter_eq_nil_iff.mp hf b (List.mem_cons_self b bt)
            simpa using this
          rw [isMissing_rowRes, hkeep]
          rfl
      | cons c ct => rfl

theorem epochRowsRes_of_good (bs : List Inferno.Dct) (ks : List String)
    (hg : Inferno.epochGood bs ks = true) :
    Inferno.epochRowsRes bs ks =
      Inferno.QVal.list (((bs.filter (fun b => Inferno.hasAllKeys b ks))).map
        (fun b => Inferno.projTuple b ks)) := by
  cases bs with
  | nil => rfl
  | cons b bt =>
      dsimp only [Inferno.epochRowsRes]
      cases hf : (b :: bt).filter (fun b => Inferno.hasAllKeys b ks) with
      | nil =>
          rw [Inferno.epochGood, hf] at hg
          simp at hg
      | cons c ct =>
          have hmap : (c :: ct).map (fun b => Inferno.rowRes b ks) =
              (c :: ct).map (fun b => Inferno.projTuple b ks) := by
            refine List.map_congr_left (fun x hx => ?_)
            rw [← hf] at hx
            exact rowRes_eq_projTuple x ks (List.mem_filter.mp hx).2
          show Inferno.QVal.list ((c :: ct).map (fun b => Inferno.rowRes b ks)) = _
          rw [hmap]

theorem lookupD_mem (d : Inferno.Dct) (k : String) (v : Inferno.QVal)
    (h : Inferno.lookupD d k = some v) : ∃ kv ∈ d, kv.2 = v := by
  induction d with
  | nil => cases h
  | cons kv rest ih =>
      rw [Inferno.lookupD] at h
      by_cases hk : kv.1 = k
      · rw [if_pos hk] at h
        cases h
        exact ⟨kv, List.mem_cons_self kv rest, rfl⟩
      · rw [if_neg hk] at h
        obtain ⟨kv', hkv', hv⟩ := ih h
        exact ⟨kv', List.mem_cons.mpr (Or.inr hkv'), hv⟩

theorem filterMissing_list_id (xs : List Inferno.QVal)
    (hfm : ∀ x ∈ xs, Inferno.filterMissing x = x)
    (hnm : ∀ x ∈ xs, Inferno.isMissing x = false) :
    Inferno.filterMissing (Inferno.QVal.list xs) = Inferno.QVal.list xs := by
  rw [Inferno.filterMissing, fmList_id xs hfm]
  have hfl : xs.filter (fun c => !(Inferno.isMissing c)) = xs := by
    refine List.filter_eq_self.mpr (fun x hx => ?_)
    rw [hnm x hx]
    rfl
  rw [hfl]
  rcases xs with _ | ⟨x, xt⟩
  · simp
  · simp

theorem getTupleParts_single_epoch (es : List Inferno.Dct) (k0 : String)
    (kt : List String) (hcl : ∀ d ∈ es, Inferno.dctClean d = true) :
    Inferno.getTupleParts (Inferno.QVal.list (es.map Inferno.QVal.dict))
      [Inferno.Idx.tup ((k0 :: kt).map Inferno.Idx.str)] =
      some (Inferno.specEpochCols es (k0 :: kt)) := by
  rw [Inferno.getTupleParts, partialIndex_dicts_tup es k0 kt hcl]
  simp only [Option.bind_eq_bind, Option.some_bind]
  cases es with
  | nil => rfl
  | cons e est =>
      cases hfl : (e :: est).filter (fun d => Inferno.hasAllKeys d (k0 :: kt)) with
      | nil =>
          have hmiss := filterMissing_map_two_err e est
            (fun d => Inferno.rowRes d (k0 :: kt)) (fun d => Inferno.rowRes d (k0 :: kt))
            (fun d => Inferno.hasAllKeys d (k0 :: kt))
            (fun x _ => filterMissing_rowRes x (k0 :: kt))
            (fun x _ => isMissing_rowRes x (k0 :: kt)) hfl
          have hkeep : Inferno.hasAllKeys e (k0 :: kt) = false := by
            have := List.filter_eq_nil_iff.mp hfl e (List.mem_cons_self e est)
            simpa using this
          rw [hmiss]
          dsimp only
          rw [rowRes_eq_missing e (k0 :: kt) hkeep]
          dsimp only [Inferno.specEpochCols]
          rw [hfl]
      | cons c ct =>
          have hok := filterMissing_map_two_ok (e :: est)
            (fun d => Inferno.rowRes d (k0 :: kt)) (fun d => Inferno.rowRes d (k0 :: kt))
            (fun d => Inferno.hasAllKeys d (k0 :: kt))
            (fun x _ => filterMissing_rowRes x (k0 :: kt))
            (fun x _ => isMissing_rowRes x (k0 :: kt))
            (Or.inr (by rw [hfl]; simp))
          rw [hok, hfl]
          have hmap : (c :: ct).map (fun d => Inferno.rowRes d (k0 :: kt)) =
              (c :: ct).map (fun d => Inferno.projTuple d (k0 :: kt)) := by
            refine List.map_congr_left (fun x hx => ?_)
            rw [← hfl] at hx
            exact rowRes_eq_projTuple x (k0 :: kt) (List.mem_filter.mp hx).2
          rw [hmap]
          dsimp only [Inferno.specEpochCols]
          rw [hfl]
          rfl

theorem filterMissing_lkd (d : Inferno.Dct) (k : String)
    (hdeep : ∀ kv ∈ d, Inferno.filterMissing kv.2 = kv.2) :
    Inferno.filterMissing (Inferno.lkd d k) = Inferno.lkd d k := by
  cases hlk : Inferno.lookupD d k with
  | none => rw [Inferno.lkd, hlk]; rfl
  | some v =>
      rw [Inferno.lkd, hlk]
      obtain ⟨kv, hkv, hv⟩ := lookupD_mem d k v hlk
      dsimp only
      rw [← hv]
      exact hdeep kv hkv

theorem isMissing_lkd (d : Inferno.Dct) (k : String)
    (hcl : Inferno.dctClean d = true) :
    Inferno.isMissing (Inferno.lkd d k) = !((Inferno.lookupD d k).isSome) := by
  cases hlk : Inferno.lookupD d k with
  | none => rw [Inferno.lkd, hlk]; rfl
  | some v =>
      rw [Inferno.lkd, hlk]
      dsimp only
      rw [lookupD_clean d k v hcl hlk]
      rfl

theorem lkd_eq_missing (d : Inferno.Dct) (k : String)
    (h : Inferno.lookupD d k = none) :
    Inferno.lkd d k = Inferno.QVal.missing (Inferno.Idx.str k) := by
  rw [Inferno.lkd, h]

theorem lkd_eq_getD (d : Inferno.Dct) (k : String)
    (h : (Inferno.lookupD d k).isSome = true) :
    Inferno.lkd d k = (Inferno.lookupD d k).getD (Inferno.QVal.num 0) := by
  cases hlk : Inferno.lookupD d k with
  | none => rw [hlk] at h; cases h
  | some v => rw [Inferno.lkd, hlk]; rfl

theorem getTupleParts_single_epoch1 (es : List Inferno.Dct) (k : String)
    (hcl : ∀ d ∈ es, Inferno.dctClean d = true)
    (hdeep : ∀ d ∈ es, ∀ kv ∈ d, Inferno.filterMissing kv.2 = kv.2) :
    Inferno.getTupleParts (Inferno.QVal.list (es.map Inferno.QVal.dict))
      [Inferno.Idx.str k] = some (Inferno.specEpochCol es k) := by
  rw [Inferno.getTupleParts, partialIndex_list_dicts_str es k]
  simp only [Option.bind_eq_bind, Option.some_bind]
  cases es with
  | nil => rfl
  | cons e est =>
      have hf : ∀ x ∈ e :: est,
          Inferno.filterMissing (Inferno.lkd x k) = Inferno.lkd x k :=
        fun x hx => filterMissing_lkd x k (hdeep x hx)
      have hmi : ∀ x ∈ e :: est,
          Inferno.isMissing (Inferno.lkd x k) = !((Inferno.lookupD x k).isSome) :=
        fun x hx => isMissing_lkd x k (hcl x hx)
      cases hfl : (e :: est).filter (fun d => (Inferno.lookupD d k).isSome) with
      | nil =>
          have hmiss := filterMissing_map_two_err e est
            (fun d => Inferno.lkd d k) (fun d => Inferno.lkd d k)
            (fun d => (Inferno.lookupD d k).isSome) hf hmi hfl
          have hkeep : (Inferno.lookupD e k).isSome = false := by
            have := List.filter_eq_nil_iff.mp hfl e (List.mem_cons_self e est)
            simpa using this
          have hnone : Inferno.lookupD e k = none := by
            cases hlk : Inferno.lookupD e k with
            | none => rfl
            | some v => rw [hlk] at hkeep; cases hkeep
          rw [hmiss]
          dsimp only
          rw [lkd_eq_missing e k hnone]
          dsimp only [Inferno.specEpochCol]
          rw [hfl]
      | cons c ct =>
          have hok := filterMissing_map_two_ok (e :: est)
            (fun d => Inferno.lkd d k) (fun d => Inferno.lkd d k)
            (fun d => (Inferno.lookupD d k).isSome) hf hmi
            (Or.inr (by rw [hfl]; simp))
          rw [hok, hfl]
          have hmap : (c :: ct).map (fun d => Inferno.lkd d k) =
              (c :: ct).map (fun d => (Inferno.lookupD d k).getD (Inferno.QVal.num 0)) := by
            refine List.map_congr_left (fun x hx => ?_)
            rw [← hfl] at hx
            exact lkd_eq_getD x k (List.mem_filter.mp hx).2
          rw [hmap]
          dsimp only [Inferno.specEpochCol]
          rw [hfl]
          rfl

theorem filterMissing_rows1 (bs : List Inferno.Dct) (k : String)
    (hcl : ∀ b ∈ bs, Inferno.dctClean b = true)
    (hdeep : ∀ b ∈ bs, ∀ kv ∈ b, Inferno.filterMissing kv.2 = kv.2) :
    Inferno.filterMissing (Inferno.QVal.list (bs.map (fun b => Inferno.lkd b k))) =
      Inferno.epochRowRes1 bs k := by
  cases bs with
  | nil => rfl
  | cons b bt =>
      dsimp only [Inferno.epochRowRes1]
      have hf : ∀ x ∈ b :: bt,
          Inferno.filterMissing (Inferno.lkd x k) = Inferno.lkd x k :=
        fun x hx => filterMissing_lkd x k (hdeep x hx)
      have hmi : ∀ x ∈ b :: bt,
          Inferno.isMissing (Inferno.lkd x k) = !((Inferno.lookupD x k).isSome) :=
        fun x hx => isMissing_lkd x k (hcl x hx)
      cases hfl : (b :: bt).filter (fun b => (Inferno.lookupD b k).isSome) with
      | nil =>
          rw [filterMissing_map_two_err b bt _ _
            (fun b => (Inferno.lookupD b k).isSome) hf hmi hfl]
      | cons c ct =>
          rw [filterMissing_map_two_ok (b :: bt) _ _
            (fun b => (Inferno.lookupD b k).isSome) hf hmi
            (Or.inr (by rw [hfl]; simp))]
          rw [hfl]

theorem isMissing_epochRowRes1 (bs : List Inferno.Dct) (k : String)
    (hcl : ∀ b ∈ bs, Inferno.dctClean b = true) :
    Inferno.isMissing (Inferno.epochRowRes1 bs k) = !(Inferno.epochGood1 bs k) := by
  cases bs with
  | nil => rfl
  | cons b bt =>
      dsimp only [Inferno.epochRowRes1, Inferno.epochGood1]
      cases hfl : (b :: bt).filter (fun b => (Inferno.lookupD b k).isSome) with
      | nil =>
          have hkeep : (Inferno.lookupD b k).isSome = false := by
            have := List.filter_eq_nil_iff.mp hfl b (List.mem_cons_self b bt)
            simpa using this
          rw [isMissing_lkd b k (hcl b (List.mem_cons_self b bt)), hkeep]
          rfl
      | cons c ct => rfl

theorem epochRowRes1_of_good (bs : List Inferno.Dct) (k : String)
    (hg : Inferno.epochGood1 bs k = true) :
    Inferno.epochRowRes1 bs k =
      Inferno.QVal.list (((bs.filter (fun b => (Inferno.lookupD b k).isSome))).map
        (fun b => (Inferno.lookupD b k).getD (Inferno.QVal.num 0))) := by
  cases bs with
  | nil => rfl
  | cons b bt =>
      dsimp only [Inferno.epochRowRes1]
      cases hfl : (b :: bt).filter (fun b => (Inferno.lookupD b k).isSome) with
      | nil =>
          rw [Inferno.epochGood1, hfl] at hg
          simp at hg
      | cons c ct =>
          have hmap : (c :: ct).map (fun b => Inferno.lkd b k) =
              (c :: ct).map (fun b => (Inferno.lookupD b k).getD (Inferno.QVal.num 0)) := by
            refine List.map_congr_left (fun x hx => ?_)
            rw [← hfl] at hx
            exact lkd_eq_getD x k (List.mem_filter.mp hx).2
          show Inferno.QVal.list ((c :: ct).map (fun b => Inferno.lkd b k)) = _
          rw [hmap]

theorem partialIndex_listlists_str (bss : List (List Inferno.Dct)) (k : String) :
    Inferno.partialIndex
      (Inferno.QVal.list (bss.map (fun bs => Inferno.QVal.list (bs.map Inferno.QVal.dict))))
      (Inferno.Idx.str k) =
      some (Inferno.QVal.list (bss.map (fun bs =>
        Inferno.QVal.list (bs.map (fun b => Inferno.lkd b k))))) := by
  have hu : Inferno.unrollCond
      ((bss.map (fun bs => Inferno.QVal.list (bs.map Inferno.QVal.dict))))
      (Inferno.Idx.str k) = true := by
    cases bss <;> rfl
  have hpm := piMap_map bss
    (fun bs => Inferno.QVal.list (bs.map Inferno.QVal.dict))
    (fun bs => Inferno.QVal.list (bs.map (fun b => Inferno.lkd b k)))
    (Inferno.Idx.str k)
    (fun bs _ => partialIndex_list_dicts_str bs k)
  simp only [Inferno.partialIndex, hu, if_true, hpm, Option.map_some']

theorem getTupleParts_single_batch (bss : List (List Inferno.Dct)) (k0 : String)
    (kt : List String)
    (hcl : ∀ bs ∈ bss, ∀ b ∈ bs, Inferno.dctClean b = true) :
    Inferno.getTupleParts
      (Inferno.QVal.list (bss.map (fun bs => Inferno.QVal.list (bs.map Inferno.QVal.dict))))
      [Inferno.Idx.tup ((k0 :: kt).map Inferno.Idx.str)] =
      some (Inferno.specBatchCols bss (k0 :: kt)) := by
  rw [Inferno.getTupleParts, partialIndex_listlists_tup bss k0 kt hcl]
  simp only [Option.bind_eq_bind, Option.some_bind]
  cases bss with
  | nil => rfl
  | cons b1 rest =>
      have hf : ∀ bs ∈ b1 :: rest,
          Inferno.filterMissing (Inferno.QVal.list
            (bs.map (fun b => Inferno.rowRes b (k0 :: kt)))) =
          Inferno.epochRowsRes bs (k0 :: kt) :=
        fun bs _ => filterMissing_rows bs (k0 :: kt)
      have hmi : ∀ bs ∈ b1 :: rest,
          Inferno.isMissing (Inferno.epochRowsRes bs (k0 :: kt)) =
          !(Inferno.epochGood bs (k0 :: kt)) :=
        fun bs _ => isMissing_epochRowsRes bs (k0 :: kt)
      cases hgl : (b1 :: rest).filter (fun bs => Inferno.epochGood bs (k0 :: kt)) with
      | nil =>
          have hmiss := filterMissing_map_two_err b1 rest
            (fun bs => Inferno.QVal.list (bs.map (fun b => Inferno.rowRes b (k0 :: kt))))
            (fun bs => Inferno.epochRowsRes bs (k0 :: kt))
            (fun bs => Inferno.epochGood bs (k0 :: kt)) hf hmi hgl
          have hbad : Inferno.epochGood b1 (k0 :: kt) = false := by
            have := List.filter_eq_nil_iff.mp hgl b1 (List.mem_cons_self b1 rest)
            simpa using this
          obtain ⟨bb, bt', rfl⟩ : ∃ bb bt', b1 = bb :: bt' := by
            cases b1 with
            | nil => rw [Inferno.epochGood] at hbad; cases hbad
            | cons bb bt' => exact ⟨bb, bt', rfl⟩
          have hbfl : (bb :: bt').filter (fun b => Inferno.hasAllKeys b (k0 :: kt)) = [] := by
            rw [Inferno.epochGood] at hbad
            cases hx : (bb :: bt').filter (fun b => Inferno.hasAllKeys b (k0 :: kt)) with
            | nil => rfl
            | cons c ct => rw [hx] at hbad; simp at hbad
          have hkeep : Inferno.hasAllKeys bb (k0 :: kt) = false := by
            have := List.filter_eq_nil_iff.mp hbfl bb (List.mem_cons_self bb bt')
            simpa using this
          rw [hmiss]
          dsimp only [Inferno.epochRowsRes]
          rw [hbfl]
          dsimp only
          rw [rowRes_eq_missing bb (k0 :: kt) hkeep]
          dsimp only [Inferno.specBatchCols]
          rw [hgl]
          rfl
      | cons g gt =>
          have hok := filterMissing_map_two_ok (b1 :: rest)
            (fun bs => Inferno.QVal.list (bs.map (fun b => Inferno.rowRes b (k0 :: kt))))
            (fun bs => Inferno.epochRowsRes bs (k0 :: kt))
            (fun bs => Inferno.epochGood bs (k0 :: kt)) hf hmi
            (Or.inr (by rw [hgl]; simp))
          rw [hok, hgl]
          have hmap : (g :: gt).map (fun bs => Inferno.epochRowsRes bs (k0 :: kt)) =
              (g :: gt).map (fun bs => Inferno.QVal.list
                ((bs.filter (fun b => Inferno.hasAllKeys b (k0 :: kt))).map
                  (fun b => Inferno.projTuple b (k0 :: kt)))) := by
            refine List.map_congr_left (fun bs hbs => ?_)
            rw [← hgl] at hbs
            exact epochRowsRes_of_good bs (k0 :: kt) (List.mem_filter.mp hbs).2
          rw [hmap]
          dsimp only [Inferno.specBatchCols]
          rw [hgl]
          rfl

theorem getTupleParts_single_batch1 (bss : List (List Inferno.Dct)) (k : String)
    (hcl : ∀ bs ∈ bss, ∀ b ∈ bs, Inferno.dctClean b = true)
    (hdeep : ∀ bs ∈ bss, ∀ b ∈ bs, ∀ kv ∈ b, Inferno.filterMissing kv.2 = kv.2) :
    Inferno.getTupleParts
      (Inferno.QVal.list (bss.map (fun bs => Inferno.QVal.list (bs.map Inferno.QVal.dict))))
      [Inferno.Idx.str k] =
      some (Inferno.specBatchCol bss k) := by
  rw [Inferno.getTupleParts, partialIndex_listlists_str bss k]
  simp only [Option.bind_eq_bind, Option.some_bind]
  cases bss with
  | nil => rfl
  | cons b1 rest =>
      have hf : ∀ bs ∈ b1 :: rest,
          Inferno.filterMissing (Inferno.QVal.list
            (bs.map (fun b => Inferno.lkd b k))) =
          Inferno.epochRowRes1 bs k :=
        fun bs hbs => filterMissing_rows1 bs k (hcl bs hbs) (hdeep bs hbs)
      have hmi : ∀ bs ∈ b1 :: rest,
          Inferno.isMissing (Inferno.epochRowRes1 bs k) =
          !(Inferno.epochGood1 bs k) :=
        fun bs hbs => isMissing_epochRowRes1 bs k (hcl bs hbs)
      cases hgl : (b1 :: rest).filter (fun bs => Inferno.epochGood1 bs k) with
      | nil =>
          have hmiss := filterMissing_map_two_err b1 rest
            (fun bs => Inferno.QVal.list (bs.map (fun b => Inferno.lkd b k)))
            (fun bs => Inferno.epochRowRes1 bs k)
            (fun bs => Inferno.epochGood1 bs k) hf hmi hgl
          have hbad : Inferno.epochGood1 b1 k = false := by
            have := List.filter_eq_nil_iff.mp hgl b1 (List.mem_cons_self b1 rest)
            simpa using this
          obtain ⟨bb, bt', rfl⟩ : ∃ bb bt', b1 = bb :: bt' := by
            cases b1 with
            | nil => rw [Inferno.epochGood1] at hbad; cases hbad
            | cons bb bt' => exact ⟨bb, bt', rfl⟩
          have hbfl : (bb :: bt').filter (fun b => (Inferno.lookupD b k).isSome) = [] := by
            rw [Inferno.epochGood1] at hbad
            cases hx : (bb :: bt').filter (fun b => (Inferno.lookupD b k).isSome) with
            | nil => rfl
            | cons c ct => rw [hx] at hbad; simp at hbad
          have hkeep : (Inferno.lookupD bb k).isSome = false := by
            have := List.filter_eq_nil_iff.mp hbfl bb (List.mem_cons_self bb bt')
            simpa using this
          have hnone : Inferno.lookupD bb k = none := by
            cases hlk : Inferno.lookupD bb k with
            | none => rfl
            | some v => rw [hlk] at hkeep; cases hkeep
          rw [hmiss]
          dsimp only [Inferno.epochRowRes1]
          rw [hbfl]
          dsimp only
          rw [lkd_eq_missing bb k hnone]
          dsimp only [Inferno.specBatchCol]
          rw [hgl]
          rfl
      | cons g gt =>
          have hok := filterMissing_map_two_ok (b1 :: rest)
            (fun bs => Inferno.QVal.list (bs.map (fun b => Inferno.lkd b k)))
            (fun bs => Inferno.epochRowRes1 bs k)
            (fun bs => Inferno.epochGood1 bs k) hf hmi
            (Or.inr (by rw [hgl]; simp))
          rw [hok, hgl]
          have hmap : (g :: gt).map (fun bs => Inferno.epochRowRes1 bs k) =
              (g :: gt).map (fun bs => Inferno.QVal.list
                ((bs.filter (fun b => (Inferno.lookupD b k).isSome)).map
                  (fun b => (Inferno.lookupD b k).getD (Inferno.QVal.num 0)))) := by
            refine List.map_congr_left (fun bs hbs => ?_)
            rw [← hgl] at hbs
            exact epochRowRes1_of_good bs k (List.mem_filter.mp hbs).2
          rw [hmap]
          dsimp only [Inferno.specBatchCol]
          rw [hgl]
          rfl

theorem getTupleParts_slice_dicts (es : List Inferno.Dct) (rest : List Inferno.Idx) :
    Inferno.getTupleParts (Inferno.QVal.list (es.map Inferno.QVal.dict))
      (Inferno.Idx.slice none none :: rest) =
    Inferno.getTupleParts (Inferno.QVal.list (es.map Inferno.QVal.dict)) rest := by
  rw [Inferno.getTupleParts, partialIndex_dictlist_slice es]
  simp only [Option.bind_eq_bind, Option.some_bind]
  rw [filterMissing_list_dicts (es.map Inferno.QVal.dict) (fun x hx => by
    obtain ⟨d, _, hd⟩ := List.mem_map.mp hx
    exact ⟨d, hd.symm⟩)]

theorem getTupleParts_slice_listlists (bss : List (List Inferno.Dct))
    (rest : List Inferno.Idx) :
    Inferno.getTupleParts
      (Inferno.QVal.list (bss.map (fun bs => Inferno.QVal.list (bs.map Inferno.QVal.dict))))
      (Inferno.Idx.slice none none :: rest) =
    Inferno.getTupleParts
      (Inferno.QVal.list (bss.map (fun bs => Inferno.QVal.list (bs.map Inferno.QVal.dict))))
      rest := by
  rw [Inferno.getTupleParts, partialIndex_listlists_slice bss]
  simp only [Option.bind_eq_bind, Option.some_bind]
  rw [filterMissing_list_id (bss.map (fun bs => Inferno.QVal.list (bs.map Inferno.QVal.dict)))
    (fun x hx => by
      obtain ⟨bs, _, hbs⟩ := List.mem_map.mp hx
      rw [← hbs]
      exact filterMissing_list_dicts (bs.map Inferno.QVal.dict) (fun b hb => by
        obtain ⟨bd, _, hbd⟩ := List.mem_map.mp hb
        exact ⟨bd, hbd.symm⟩))
    (fun x hx => by
      obtain ⟨bs, _, hbs⟩ := List.mem_map.mp hx
      rw [← hbs]
      rfl)]

theorem getTupleParts_batches_step (eps : List (List Inferno.Dct × Inferno.Dct))
    (rest : List Inferno.Idx) :
    Inferno.getTupleParts
      (Inferno.QVal.list (eps.map (fun p => Inferno.QVal.dict
        (("batches", Inferno.QVal.list (p.1.map Inferno.QVal.dict)) :: p.2))))
      (Inferno.Idx.str "batches" :: rest) =
    Inferno.getTupleParts
      (Inferno.QVal.list ((eps.map Prod.fst).map
        (fun bs => Inferno.QVal.list (bs.map Inferno.QVal.dict))))
      rest := by
  have hh : eps.map (fun p => Inferno.QVal.dict
      (("batches", Inferno.QVal.list (p.1.map Inferno.QVal.dict)) :: p.2)) =
      (eps.map (fun p => ("batches", Inferno.QVal.list (p.1.map Inferno.QVal.dict)) :: p.2)).map
        Inferno.QVal.dict := by
    rw [List.map_map]
    rfl
  have hlkd : (eps.map (fun p =>
      ("batches", Inferno.QVal.list (p.1.map Inferno.QVal.dict)) :: p.2)).map
      (fun d => Inferno.lkd d "batches") =
      (eps.map Prod.fst).map (fun bs => Inferno.QVal.list (bs.map Inferno.QVal.dict)) := by
    rw [List.map_map, List.map_map]
    refine List.map_congr_left (fun p _ => ?_)
    simp [Function.comp, Inferno.lkd, Inferno.lookupD]
  rw [hh, Inferno.getTupleParts, partialIndex_list_dicts_str]
  simp only [Option.bind_eq_bind, Option.some_bind]
  rw [hlkd]
  rw [filterMissing_list_id ((eps.map Prod.fst).map
      (fun bs => Inferno.QVal.list (bs.map Inferno.QVal.dict)))
    (fun x hx => by
      obtain ⟨bs, _, hbs⟩ := List.mem_map.mp hx
      rw [← hbs]
      exact filterMissing_list_dicts (bs.map Inferno.QVal.dict) (fun b hb => by
        obtain ⟨bd, _, hbd⟩ := List.mem_map.mp hb
        exact ⟨bd, hbd.symm⟩))
    (fun x hx => by
      obtain ⟨bs, _, hbs⟩ := List.mem_map.mp hx
      rw [← hbs]
      rfl)]

/-- C1: characterization of `History.__getitem__` for the multi-axis
queries with a column selector, at the epoch level (`[:, cols]`) and at
the batch level (`[:, 'batches', :, cols]`), for a tuple of column names
and for a single column name.  A record missing a selected column is
excluded from the result, recursively: a batch missing a column is
excluded inside its epoch, an epoch whose (non-empty) batch list is
emptied by the exclusion is excluded in turn; and whenever the exclusion
empties a non-empty result level, the query raises a `KeyError` whose
argument is the originally missing key, instead of returning an empty
result.  Histories consist of dicts whose stored values are ordinary data
(never the internal `__missingno`, which cannot occur in a real history). -/
theorem c1_theorem (es : List Inferno.Dct)
    (eps : List (List Inferno.Dct × Inferno.Dct))
    (k0 k : String) (kt : List String)
    (hcl1 : ∀ d ∈ es, Inferno.dctClean d = true)
    (hdeep1 : ∀ d ∈ es, ∀ kv ∈ d, Inferno.filterMissing kv.2 = kv.2)
    (hcl2 : ∀ p ∈ eps, ∀ b ∈ p.1, Inferno.dctClean b = true)
    (hdeep2 : ∀ p ∈ eps, ∀ b ∈ p.1, ∀ kv ∈ b, Inferno.filterMissing kv.2 = kv.2) :
    (Inferno.histGetItem (es.map Inferno.QVal.dict)
        (Inferno.Idx.tup [Inferno.Idx.slice none none,
          Inferno.Idx.tup ((k0 :: kt).map Inferno.Idx.str)]) =
      some (Inferno.specEpochCols es (k0 :: kt))) ∧
    (Inferno.histGetItem (es.map Inferno.QVal.dict)
        (Inferno.Idx.tup [Inferno.Idx.slice none none, Inferno.Idx.str k]) =
      some (Inferno.specEpochCol es k)) ∧
    (Inferno.histGetItem (eps.map (fun p => Inferno.QVal.dict
          (("batches", Inferno.QVal.list (p.1.map Inferno.QVal.dict)) :: p.2)))
        (Inferno.Idx.tup [Inferno.Idx.slice none none, Inferno.Idx.str "batches",
          Inferno.Idx.slice none none,
          Inferno.Idx.tup ((k0 :: kt).map Inferno.Idx.str)]) =
      some (Inferno.specBatchCols (eps.map Prod.fst) (k0 :: kt))) ∧
    (Inferno.histGetItem (eps.map (fun p => Inferno.QVal.dict
          (("batches", Inferno.QVal.list (p.1.map Inferno.QVal.dict)) :: p.2)))
        (Inferno.Idx.tup [Inferno.Idx.slice none none, Inferno.Idx.str "batches",
          Inferno.Idx.slice none none, Inferno.Idx.str k]) =
      some (Inferno.specBatchCol (eps.map Prod.fst) k)) := by
  have hcl2' : ∀ bs ∈ eps.map Prod.fst, ∀ b ∈ bs, Inferno.dctClean b = true := by
    intro bs hbs
    obtain ⟨p, hp, rfl⟩ := List.mem_map.mp hbs
    exact hcl2 p hp
  have hdeep2' : ∀ bs ∈ eps.map Prod.fst, ∀ b ∈ bs, ∀ kv ∈ b,
      Inferno.filterMissing kv.2 = kv.2 := by
    intro bs hbs
    obtain ⟨p, hp, rfl⟩ := List.mem_map.mp hbs
    exact hdeep2 p hp
  refine ⟨?_, ?_, ?_, ?_⟩
  · rw [Inferno.histGetItem, getTupleParts_slice_dicts]
    exact getTupleParts_single_epoch es k0 kt hcl1
  · rw [Inferno.histGetItem, getTupleParts_slice_dicts]
    exact getTupleParts_single_epoch1 es k hcl1 hdeep1
  · have hh : eps.map (fun p => Inferno.QVal.dict
        (("batches", Inferno.QVal.list (p.1.map Inferno.QVal.dict)) :: p.2)) =
        (eps.map (fun p =>
          ("batches", Inferno.QVal.list (p.1.map Inferno.QVal.dict)) :: p.2)).map
          Inferno.QVal.dict := by
      rw [List.map_map]
      rfl
    rw [Inferno.histGetItem, hh, getTupleParts_slice_dicts, ← hh,
      getTupleParts_batches_step, getTupleParts_slice_listlists]
    exact getTupleParts_single_batch (eps.map Prod.fst) k0 kt hcl2'
  · have hh : eps.map (fun p => Inferno.QVal.dict
        (("batches", Inferno.QVal.list (p.1.map Inferno.QVal.dict)) :: p.2)) =
        (eps.map (fun p =>
          ("batches", Inferno.QVal.list (p.1.map Inferno.QVal.dict)) :: p.2)).map
          Inferno.QVal.dict := by
      rw [List.map_map]
      rfl
    rw [Inferno.histGetItem, hh, getTupleParts_slice_dicts, ← hh,
      getTupleParts_batches_step, getTupleParts_slice_listlists]
    exact getTupleParts_single_batch1 (eps.map Prod.fst) k hcl2' hdeep2'

theorem numsClean (d : Inferno.Dct)
    (h : d.all (fun kv => match kv.2 with
      | Inferno.QVal.num _ => true
      | _ => false) = true) :
    ∀ kv ∈ d, Inferno.filterMissing kv.2 = kv.2 := by
  intro kv hkv
  have hx := List.all_eq_true.mp h kv hkv
  cases hv : kv.2 <;> rw [hv] at hx <;> first | rfl | cases hx

theorem numsClean2 (es : List Inferno.Dct)
    (h : es.all (fun d => d.all (fun kv => match kv.2 with
      | Inferno.QVal.num _ => true
      | _ => false)) = true) :
    ∀ d ∈ es, ∀ kv ∈ d, Inferno.filterMissing kv.2 = kv.2 :=
  fun d hd => numsClean d (List.all_eq_true.mp h d hd)

theorem numsClean3 (eps : List (List Inferno.Dct × Inferno.Dct))
    (h : eps.all (fun p => p.1.all (fun b => b.all (fun kv => match kv.2 with
      | Inferno.QVal.num _ => true
      | _ => false))) = true) :
    ∀ p ∈ eps, ∀ b ∈ p.1, ∀ kv ∈ b, Inferno.filterMissing kv.2 = kv.2 :=
  fun p hp b hb => numsClean b (List.all_eq_true.mp (List.all_eq_true.mp h p hp) b hb)

/-- Witness for `c1_theorem`: two epochs where only the first has both
`train_loss` and `epoch` (the second is excluded; querying a key `'a'`
absent everywhere raises `KeyError('a')`), and two epochs of batches
where only the first batch of the first epoch has both columns. -/
theorem c1_theorem_witness :
    (Inferno.histGetItem
        [Inferno.QVal.dict [("epoch", Inferno.QVal.num 1), ("train_loss", Inferno.QVal.num 10)],
         Inferno.QVal.dict [("epoch", Inferno.QVal.num 2)]]
        (Inferno.Idx.tup [Inferno.Idx.slice none none,
          Inferno.Idx.tup [Inferno.Idx.str "train_loss", Inferno.Idx.str "epoch"]]) =
      some (Except.ok (Inferno.QVal.list
        [Inferno.QVal.tuplev [Inferno.QVal.num 10, Inferno.QVal.num 1]]))) ∧
    (Inferno.histGetItem
        [Inferno.QVal.dict [("epoch", Inferno.QVal.num 1), ("train_loss", Inferno.QVal.num 10)],
         Inferno.QVal.dict [("epoch", Inferno.QVal.num 2)]]
        (Inferno.Idx.tup [Inferno.Idx.slice none none, Inferno.Idx.str "a"]) =
      some (Except.error (Inferno.Idx.str "a"))) ∧
    (Inferno.histGetItem
        [Inferno.QVal.dict [("batches", Inferno.QVal.list
          [Inferno.QVal.dict [("train_loss", Inferno.QVal.num 5), ("epoch", Inferno.QVal.num 1)],
           Inferno.QVal.dict [("x", Inferno.QVal.num 9)]])],
         Inferno.QVal.dict [("batches", Inferno.QVal.list
          [Inferno.QVal.dict [("x", Inferno.QVal.num 8)]])]]
        (Inferno.Idx.tup [Inferno.Idx.slice none none, Inferno.Idx.str "batches",
          Inferno.Idx.slice none none,
          Inferno.Idx.tup [Inferno.Idx.str "train_loss", Inferno.Idx.str "epoch"]]) =
      some (Except.ok (Inferno.QVal.list [Inferno.QVal.list
        [Inferno.QVal.tuplev [Inferno.QVal.num 5, Inferno.QVal.num 1]]]))) ∧
    (Inferno.histGetItem
        [Inferno.QVal.dict [("batches", Inferno.QVal.list
          [Inferno.QVal.dict [("train_loss", Inferno.QVal.num 5), ("epoch", Inferno.QVal.num 1)],
           Inferno.QVal.dict [("x", Inferno.QVal.num 9)]])],
         Inferno.QVal.dict [("batches", Inferno.QVal.list
          [Inferno.QVal.dict [("x", Inferno.QVal.num 8)]])]]
        (Inferno.Idx.tup [Inferno.Idx.slice none none, Inferno.Idx.str "batches",
          Inferno.Idx.slice none none, Inferno.Idx.str "a"]) =
      some (Except.error (Inferno.Idx.str "a"))) := by
  have h := c1_theorem
    [[("epoch", Inferno.QVal.num 1), ("train_loss", Inferno.QVal.num 10)],
     [("epoch", Inferno.QVal.num 2)]]
    [([[("train_loss", Inferno.QVal.num 5), ("epoch", Inferno.QVal.num 1)],
       [("x", Inferno.QVal.num 9)]], []),
     ([[("x", Inferno.QVal.num 8)]], [])]
    "train_loss" "a" ["epoch"]
    (by decide)
    (numsClean2 _ (by decide))
    (by decide)
    (numsClean3 _ (by decide))
  exact ⟨h.1, h.2.1, h.2.2.1, h.2.2.2⟩
